import Mathlib

/-!
Word-Checker: the two Set implementations and the suggestion generator

A shallow embedding of `core/AVLSet.hpp`, `core/HashSet.hpp` and
`core/WordChecker.cpp`.

* A `Node*` of `AVLSet.hpp` is a value of `AVLSet.Node`: `null` is `nullptr`,
  `mk left value height right` is a pointer to a node with these four fields.
  Functions that mutate the tree in place return the new tree.
* A visitor passed to a traversal is modelled by the list of the elements it is
  called with, in call order.
* `int` fields (`height`, `tableSize`, `capacity`, `key`) are integers. The one
  place where a 32-bit conversion changes a value that small inputs can reach,
  the conversion of the `unsigned int` hash code to `int key` and of the `int`
  index to the `unsigned int` parameter of `isElementAtIndex`, is written out.
-/

/-! ## AVLSet.hpp -/

/-- The type `Node*` of `AVLSet.hpp`. -/
inductive AVLSet.Node (α : Type) where
  | null : AVLSet.Node α
  | mk (left : AVLSet.Node α) (value : α) (height : Int) (right : AVLSet.Node α) : AVLSet.Node α
deriving DecidableEq, Repr

/-- The class `AVLSet<T>`: its only data member is `root`. -/
structure AVLSet (α : Type) where
  root : AVLSet.Node α
deriving DecidableEq, Repr

namespace AVLSet

variable {α : Type}

/-- The test `p == nullptr`. -/
def Node.isNull : Node α → Bool
  | .null => true
  | .mk _ _ _ _ => false

/-- The constructor `AVLSet()`: `root{nullptr}`. -/
def empty : AVLSet α := ⟨.null⟩

/-- The function `createNode`: a fresh node with the member initialisers
`left = nullptr`, `height = 0`, `right = nullptr` and the given value. -/
def createNode (element : α) : Node α := .mk .null element 0 .null

/-- The function `nodeHeight`: computed from the cached heights of the
children. The source only calls it on a non-null node. -/
def nodeHeight : Node α → Int
  | .null => 0
  | .mk .null _ _ .null => 0
  | .mk .null _ _ (.mk _ _ hr _) => hr + 1
  | .mk (.mk _ _ hl _) _ _ .null => hl + 1
  | .mk (.mk _ _ hl _) _ _ (.mk _ _ hr _) => if hr > hl then hr + 1 else hl + 1

/-- The function `addNode`. The statement `curr->height = nodeHeight(curr)` is
not part of the `else` above it, but it is only reached after that `else`,
because the `if` branch returns. The rebalancing block at the end of the
source function is commented out. The source only calls it on a non-null
node. -/
def addNode [LinearOrder α] : Node α → α → Node α
  | .null, _ => .null
  | .mk l v h r, element =>
    if v < element then
      if r.isNull then
        .mk l v 1 (createNode element)
      else
        let newRight := addNode r element
        .mk l v (nodeHeight (.mk l v h newRight)) newRight
    else if v > element then
      if l.isNull then
        .mk (createNode element) v 1 r
      else
        let newLeft := addNode l element
        .mk newLeft v (nodeHeight (.mk newLeft v h r)) r
    else
      .mk l v h r

/-- The member function `add`. -/
def add [LinearOrder α] (s : AVLSet α) (element : α) : AVLSet α :=
  if s.root.isNull then ⟨createNode element⟩ else ⟨addNode s.root element⟩

/-- The function `containsR`. The source only calls it on a non-null node. -/
def containsR [LinearOrder α] (element : α) : Node α → Bool
  | .null => false
  | .mk l v _ r =>
    if v < element then
      if r.isNull then false else containsR element r
    else if v > element then
      if l.isNull then false else containsR element l
    else
      true

/-- The member function `contains`. -/
def contains [LinearOrder α] (s : AVLSet α) (element : α) : Bool :=
  if s.root.isNull then false else containsR element s.root

/-- The member function `size`: the body is `return 0;`. -/
def size (_s : AVLSet α) : Nat := 0

/-- The member function `height`. -/
def height (s : AVLSet α) : Int :=
  match s.root with
  | .null => -1
  | .mk _ _ h _ => h

/-- The function `preorderR`; the result lists the arguments of `visit`. -/
def preorderR : Node α → List α
  | .null => []
  | .mk l v _ r =>
    [v] ++ (if l.isNull then [] else preorderR l) ++ (if r.isNull then [] else preorderR r)

/-- The member function `preorder`. -/
def preorder (s : AVLSet α) : List α :=
  if s.root.isNull then [] else preorderR s.root

/-- The function `inorderR`; the result lists the arguments of `visit`. -/
def inorderR : Node α → List α
  | .null => []
  | .mk l v _ r =>
    (if l.isNull then [] else inorderR l) ++ [v] ++ (if r.isNull then [] else inorderR r)

/-- The member function `inorder`. -/
def inorder (s : AVLSet α) : List α :=
  if s.root.isNull then [] else inorderR s.root

/-- The function `postorderR`; the result lists the arguments of `visit`. -/
def postorderR : Node α → List α
  | .null => []
  | .mk l v _ r =>
    (if l.isNull then [] else postorderR l) ++ (if r.isNull then [] else postorderR r) ++ [v]

/-- The member function `postorder`. -/
def postorder (s : AVLSet α) : List α :=
  if s.root.isNull then [] else postorderR s.root

/-- The state after a sequence of `add` calls on an empty set. -/
def addAll [LinearOrder α] (xs : List α) : AVLSet α := xs.foldl add empty

/-! ### Properties the claims speak about -/

/-- The height of a subtree as the number of edges on a longest path to a
leaf; an absent subtree has height `-1`. -/
def Node.trueHeight : Node α → Int
  | .null => -1
  | .mk l _ _ r => 1 + max l.trueHeight r.trueHeight

/-- Every node satisfies `|height(left) - height(right)| ≤ 1`. -/
def Node.isBalanced : Node α → Bool
  | .null => true
  | .mk l _ _ r =>
    decide (|l.trueHeight - r.trueHeight| ≤ 1) && l.isBalanced && r.isBalanced

/-- The cached height of a subtree, `-1` when absent. -/
def Node.cachedHeight : Node α → Int
  | .null => -1
  | .mk _ _ h _ => h

/-- Every node caches `1 + max(height(left), height(right))`. -/
def Node.heightsCorrect : Node α → Bool
  | .null => true
  | .mk l _ h r =>
    decide (h = 1 + max l.cachedHeight r.cachedHeight) && l.heightsCorrect && r.heightsCorrect

/-- The binary-search-tree ordering of a subtree. -/
def Node.Bst [LinearOrder α] : Node α → Prop
  | .null => True
  | .mk l v _ r =>
    l.Bst ∧ r.Bst ∧ (∀ x ∈ inorderR l, x < v) ∧ (∀ x ∈ inorderR r, v < x)

end AVLSet

/-! ## HashSet.hpp

A chain of `hashNode`s linked by `next` is the list of its nodes, head first;
`hashArr` is the list of its chains. An operation returns `none` when the
source does not complete it normally: it calls an empty `std::function`
(which throws) or reads or writes `hashArr` outside the array.

`tableSize` and `capacity` are integers, and the operations on them are the
exact ones: this is the behaviour of the source as long as no `int` operation
overflows, which is the case while fewer than `2^29` elements are stored (see
`HashSet.capacity_bound`).
-/

/-- The struct `hashNode`; the `next` link is the tail of the chain list. -/
structure HashSet.hashNode (α : Type) where
  key : Int
  value : α
deriving DecidableEq, Repr

/-- The class `HashSet<T>`. A `hashFunction` of `none` is an empty
`std::function` (the copy and move constructors initialise it from `nullptr`);
the hash function returns `unsigned int`, a natural number taken modulo
`2^32`. -/
structure HashSet (α : Type) where
  hashFunction : Option (α → Nat)
  hashArr : List (List (HashSet.hashNode α))
  tableSize : Int
  capacity : Int

namespace HashSet

variable {α : Type}

/-- The constant `DEFAULT_CAPACITY`. -/
def DEFAULT_CAPACITY : Nat := 10

/-- The conversion of an `unsigned int` value to `int`: codes from `2^31` on
become negative. -/
def unsignedToInt (u : Nat) : Int :=
  if u % 2 ^ 32 < 2 ^ 31 then ((u % 2 ^ 32 : Nat) : Int) else ((u % 2 ^ 32 : Nat) : Int) - 2 ^ 32

/-- The conversion of an `int` value to `unsigned int`: a negative value `i`
becomes `2^32 + i`, any other value is unchanged. -/
def intToUnsigned (i : Int) : Nat := if i < 0 then (i + 2 ^ 32).toNat else i.toNat

/-- The read `arr[index]` with an `int` index; `none` outside the array. -/
def bucketAt (arr : List (List (hashNode α))) (index : Int) : Option (List (hashNode α)) :=
  if index < 0 then none else arr[index.toNat]?

/-- The constructor `HashSet(HashFunction)`: `DEFAULT_CAPACITY` empty buckets
and `tableSize = 0`. -/
def create (hashFunction : α → Nat) : HashSet α :=
  { hashFunction := some hashFunction
    hashArr := List.replicate DEFAULT_CAPACITY []
    tableSize := 0
    capacity := (DEFAULT_CAPACITY : Int) }

/-- The loop `while (curr != nullptr) { if (curr->value == element) return true;
curr = curr->next; } return false;` shared by `contains` and
`isElementAtIndex`. -/
def chainContains [DecidableEq α] (element : α) : List (hashNode α) → Bool
  | [] => false
  | curr :: next => if curr.value = element then true else chainContains element next

/-- The member function `isElementAtIndex`; `index` is `unsigned int`. -/
def isElementAtIndex [DecidableEq α] (s : HashSet α) (element : α) (index : Nat) :
    Option Bool :=
  match s.hashArr[index]? with
  | none => none
  | some chain => some (chainContains element chain)

/-- The member function `elementsAtIndex`; `index` is `unsigned int`. -/
def elementsAtIndex (s : HashSet α) (index : Nat) : Option Nat :=
  match s.hashArr[index]? with
  | none => none
  | some chain => some chain.length

/-- The append of a new node holding `key` and `value` at the tail of the
chain of bucket `index` (an `int`): when the bucket is `nullptr` the node
becomes its head, otherwise the chain is walked to its last node, whose
`next` is set. Used by `add` on `hashArr` and by `resize` on `newArr`. -/
def appendAt (arr : List (List (hashNode α))) (index : Int) (key : Int) (value : α) :
    Option (List (List (hashNode α))) :=
  match bucketAt arr index with
  | none => none
  | some chain => some (arr.set index.toNat (chain ++ [{ key := key, value := value }]))

/-- The body of the inner `while` loop of `resize` for the node `originCurr`:
it is re-bucketed by its stored key. -/
def migrate (newCapacity : Int) (newArr : List (List (hashNode α))) (originCurr : hashNode α) :
    Option (List (List (hashNode α))) :=
  appendAt newArr (Int.tmod originCurr.key newCapacity) originCurr.key originCurr.value

/-- The member function `resize`: a new array of `capacity * 2` empty
buckets, filled by walking the old buckets `0 .. capacity - 1` and each chain
from its head. -/
def resize (s : HashSet α) : Option (HashSet α) :=
  let newCapacity := s.capacity * 2
  let newArr : List (List (hashNode α)) := List.replicate newCapacity.toNat []
  let filled := (List.range s.capacity.toNat).foldlM
    (fun arr i =>
      match s.hashArr[i]? with
      | none => none
      | some chain => chain.foldlM (migrate newCapacity) arr)
    newArr
  match filled with
  | none => none
  | some arr => some { s with hashArr := arr, capacity := newCapacity }

/-- The part of `add` before the load-factor test: nothing changes when the
element is found in its bucket, otherwise a node is appended to the bucket
and `tableSize` is incremented. The result also says whether a node was
appended. -/
def addNoResize [DecidableEq α] (s : HashSet α) (element : α) : Option (HashSet α × Bool) :=
  match s.hashFunction with
  | none => none
  | some hashFunction =>
    let key : Int := unsignedToInt (hashFunction element)
    let index : Int := Int.tmod key s.capacity
    match isElementAtIndex s element (intToUnsigned index) with
    | none => none
    | some true => some (s, false)
    | some false =>
      match appendAt s.hashArr index key element with
      | none => none
      | some arr => some ({ s with hashArr := arr, tableSize := s.tableSize + 1 }, true)

/-- The load-factor test `double(tableSize)/capacity > 0.8` of `add`. For
`int` operands with `capacity > 0` the rounded quotient exceeds the `double`
nearest to `0.8` exactly when `5 * tableSize > 4 * capacity`: the quotient
`8/10` rounds to that same `double`, and any other quotient differs from `4/5`
by at least `1/(5 * capacity) > 2^(-34)`, far more than the rounding error. -/
def overLoaded (s : HashSet α) : Bool :=
  decide (5 * s.tableSize > 4 * s.capacity)

/-- The member function `add`. -/
def add [DecidableEq α] (s : HashSet α) (element : α) : Option (HashSet α) :=
  match addNoResize s element with
  | none => none
  | some (s1, false) => some s1
  | some (s1, true) => if overLoaded s1 then resize s1 else some s1

/-- The member function `contains`. -/
def contains [DecidableEq α] (s : HashSet α) (element : α) : Option Bool :=
  match s.hashFunction with
  | none => none
  | some hashFunction =>
    let key : Int := unsignedToInt (hashFunction element)
    let index : Int := Int.tmod key s.capacity
    match bucketAt s.hashArr index with
    | none => none
    | some chain => some (chainContains element chain)

/-- The member function `size`: `tableSize` returned as `unsigned int`. -/
def size (s : HashSet α) : Nat := intToUnsigned s.tableSize

/-- The state after a sequence of `add` calls on a freshly constructed set,
`none` if one of them does not complete normally. -/
def addAll [DecidableEq α] (hashFunction : α → Nat) (xs : List α) : Option (HashSet α) :=
  xs.foldlM add (create hashFunction)

/-- All nodes of the table, bucket by bucket. -/
def nodes (s : HashSet α) : List (hashNode α) := s.hashArr.flatten

/-- All stored values, bucket by bucket. -/
def values (s : HashSet α) : List α := s.nodes.map hashNode.value

/-- Every node of bucket `j` has a stored key with `key % cap = j`. -/
def Placed (cap : Int) (arr : List (List (hashNode α))) : Prop :=
  ∀ (j : Nat) (chain : List (hashNode α)), arr[j]? = some chain →
    ∀ n ∈ chain, Int.tmod n.key cap = (j : Int)

/-- The representation invariant of a set built with the hash function `f`. -/
structure WF (f : α → Nat) (s : HashSet α) : Prop where
  fn : s.hashFunction = some f
  capPos : 0 < s.capacity
  len : s.hashArr.length = s.capacity.toNat
  keyed : ∀ n ∈ s.nodes, n.key = (f n.value : Int)
  placed : Placed s.capacity s.hashArr
  nodup : s.values.Nodup
  count : s.tableSize = (s.nodes.length : Int)

/-- The invariant of the states reached by `add` calls under a hash function
`f` with codes below `2^31`. -/
structure Good (f : α → Nat) (s : HashSet α) : Prop where
  wf : WF f s
  load : 5 * s.tableSize ≤ 4 * s.capacity
  capMin : 10 ≤ s.capacity
  grown : s.capacity = 10 ∨ 2 * s.capacity < 5 * s.tableSize

end HashSet

/-! ## AVLSet.hpp: copy and move

The member `root` has no initialiser, and `copy` is called with a local
`Node* newRoot` that has none either. A parameter named `uninit` stands for
the indeterminate value such a pointer holds before it is first assigned. -/

namespace AVLSet

variable {α : Type}

/-- The function `copy(Node* copyNode, const Node* originNode)`. The pointer
`copyNode` is passed by value, so the assignment `copyNode = createNode(...)`
changes the local variable only, and the recursive calls, which are passed
`copyNode->left` and `copyNode->right` by value, leave both children of the
new node `nullptr`. The result is the node that the local `copyNode` points to
when the function returns; the pointer of the caller is not changed. The
source only calls it on a non-null `originNode`. -/
def copy : Node α → Node α
  | .null => .null
  | .mk l v h r =>
    let copyNode : Node α := .mk .null v h .null
    let _leftLocal : Node α := if l.isNull then .null else copy l
    let _rightLocal : Node α := if r.isNull then .null else copy r
    copyNode

/-- The copy constructor `AVLSet(const AVLSet& s)`: for a non-empty `s` it
calls `copy(root, s.root)`, after which `root` still holds its indeterminate
value `uninit`. -/
def copyConstruct (uninit : Node α) (s : AVLSet α) : AVLSet α :=
  if s.root.isNull then ⟨.null⟩
  else
    let _copyNode := copy s.root
    ⟨uninit⟩

/-- The copy assignment `operator=(const AVLSet& s)` applied to `self`;
`sameObject` is the test `this == &s`, and `uninit` the indeterminate value of
the local `newRoot`, which `copy(newRoot, s.root)` does not change. The call
`removeAll(root)` dereferences `root`: the result is `none` when `root` is
`nullptr`. -/
def copyAssign (uninit : Node α) (self s : AVLSet α) (sameObject : Bool) :
    Option (AVLSet α) :=
  if !sameObject && !s.root.isNull then
    let _copyNode := copy s.root
    if self.root.isNull then none else some ⟨uninit⟩
  else some self

/-- The move constructor `AVLSet(AVLSet&& s)`: the new object and `s`
afterwards. For a non-empty `s` it swaps the uninitialised `root` with
`s.root`. -/
def moveConstruct (uninit : Node α) (s : AVLSet α) : AVLSet α × AVLSet α :=
  if s.root.isNull then (⟨.null⟩, s) else (⟨s.root⟩, ⟨uninit⟩)

/-- The move assignment `operator=(AVLSet&& s)` applied to `self`:
`std::swap(root, s.root)`. The result is `self` and `s` afterwards. -/
def moveAssign (self s : AVLSet α) : AVLSet α × AVLSet α :=
  (⟨s.root⟩, ⟨self.root⟩)

end AVLSet

/-! ## HashSet.hpp: copy, move and allocation failure -/

namespace HashSet

variable {α : Type}

/-- The body of the `while` loop of `copyAll` for one node of the source
chain: `copyCurr = new hashNode`, the key and value are copied into it, and
`copyCurr = copyCurr->next`, which is `nullptr`. The new node is linked to
nothing; the result is the list of the nodes allocated so far. -/
def copyNodeUnlinked (allocated : List (hashNode α)) (originCurr : hashNode α) :
    List (hashNode α) :=
  allocated ++ [{ key := originCurr.key, value := originCurr.value }]

/-- The member function `copyAll` applied to `self`, whose `capacity` has been
set by the caller. It allocates a new bucket array, whose elements are not
initialised (`uninit` stands for their indeterminate values), and walks the
chains of `s.hashArr[0 .. capacity - 1]`; no statement writes to an element of
the new array. The result is `none` when a read of `s.hashArr` is outside the
array. -/
def copyAll (uninit : List (List (hashNode α))) (self s : HashSet α) : Option (HashSet α) :=
  let walked := (List.range self.capacity.toNat).foldlM
    (fun allocated i =>
      match s.hashArr[i]? with
      | none => none
      | some chain => some (chain.foldl copyNodeUnlinked allocated))
    ([] : List (hashNode α))
  match walked with
  | none => none
  | some _ => some { self with hashArr := uninit }

/-- The copy constructor `HashSet(const HashSet& s)`: `hashFunction{nullptr}`,
then `capacity` and `tableSize` are copied and `copyAll(s)` is called. -/
def copyConstruct (uninit : List (List (hashNode α))) (s : HashSet α) : Option (HashSet α) :=
  copyAll uninit
    { hashFunction := none, hashArr := uninit, tableSize := s.tableSize, capacity := s.capacity }
    s

/-- The copy assignment `operator=(const HashSet& s)` applied to `self`:
`capacity` and `tableSize` are copied and `copyAll(s)` is called;
`hashFunction` is not assigned. -/
def copyAssign (uninit : List (List (hashNode α))) (self s : HashSet α) : Option (HashSet α) :=
  copyAll uninit { self with tableSize := s.tableSize, capacity := s.capacity } s

/-- The move constructor `HashSet(HashSet&& s)`: `hashFunction{nullptr}` and
`std::swap(hashArr, s.hashArr)`; `tableSize` and `capacity` of the new object
are not initialised. The result is the new object and `s` afterwards. -/
def moveConstruct (uninitArr : List (List (hashNode α))) (uninitSize uninitCapacity : Int)
    (s : HashSet α) : HashSet α × HashSet α :=
  ({ hashFunction := none, hashArr := s.hashArr, tableSize := uninitSize,
     capacity := uninitCapacity },
   { s with hashArr := uninitArr })

/-- The move assignment `operator=(HashSet&& s)` applied to `self`:
`std::swap(hashArr, s.hashArr)` and nothing else. The result is `self` and `s`
afterwards. -/
def moveAssign (self s : HashSet α) : HashSet α × HashSet α :=
  ({ self with hashArr := s.hashArr }, { s with hashArr := self.hashArr })

/-- How `add` ends when allocations can fail. -/
inductive AllocResult (α : Type) where
  /-- The call returns; `allocs` allocations are still available. -/
  | done (s : HashSet α) (allocs : Nat) : AllocResult α
  /-- A `std::bad_alloc` reaches the caller; `left` holds the data members as
  the call leaves them, and `hashArrDeleted` says that `hashArr` points to an
  array that has been passed to `delete`. -/
  | badAlloc (left : HashSet α) (hashArrDeleted : Bool) : AllocResult α
  /-- An empty `std::function` is called or an array is accessed outside its
  bounds. -/
  | fault : AllocResult α

/-- Why the re-bucketing loop of `resize` stops early. -/
inductive MigrateStop where
  | fault : MigrateStop
  | badAlloc : MigrateStop

/-- The body of the inner loop of `resize` when `createNode()` can fail: the
bucket `newArr[newIndex]` is read first, then the node is allocated. The
second component counts the allocations still available. -/
def migrateAlloc (newCapacity : Int) (acc : List (List (hashNode α)) × Nat)
    (originCurr : hashNode α) : Except MigrateStop (List (List (hashNode α)) × Nat) :=
  let newIndex := Int.tmod originCurr.key newCapacity
  match bucketAt acc.1 newIndex with
  | none => .error .fault
  | some chain =>
    match acc.2 with
    | 0 => .error .badAlloc
    | allocs + 1 =>
      .ok (acc.1.set newIndex.toNat
            (chain ++ [{ key := originCurr.key, value := originCurr.value }]), allocs)

/-- The member function `resize` when the next `allocs` allocations succeed
and the one after them fails. When `new hashNode*[newCapacity]` fails, the
`catch` block runs `delete hashArr` and rethrows. When a `createNode()` of the
re-bucketing loop fails, the exception leaves `resize` with `hashArr` and
`capacity` unchanged. -/
def resizeAlloc (allocs : Nat) (s : HashSet α) : AllocResult α :=
  let newCapacity := s.capacity * 2
  match allocs with
  | 0 => .badAlloc s true
  | allocs + 1 =>
    let newArr : List (List (hashNode α)) := List.replicate newCapacity.toNat []
    let filled : Except MigrateStop (List (List (hashNode α)) × Nat) :=
      (List.range s.capacity.toNat).foldlM
      (fun acc i =>
        match s.hashArr[i]? with
        | none => .error .fault
        | some chain => chain.foldlM (migrateAlloc newCapacity) acc)
      (newArr, allocs)
    match filled with
    | .error .fault => .fault
    | .error .badAlloc => .badAlloc s false
    | .ok (arr, rest) => .done { s with hashArr := arr, capacity := newCapacity } rest

/-- The member function `add` when the next `allocs` allocations succeed and
the one after them fails. The node for `element` is allocated by
`createNode()` after the bucket has been searched and before anything is
written; `tableSize++` and `resize()` follow. -/
def addAlloc [DecidableEq α] (allocs : Nat) (s : HashSet α) (element : α) : AllocResult α :=
  match s.hashFunction with
  | none => .fault
  | some hashFunction =>
    let key : Int := unsignedToInt (hashFunction element)
    let index : Int := Int.tmod key s.capacity
    match isElementAtIndex s element (intToUnsigned index) with
    | none => .fault
    | some true => .done s allocs
    | some false =>
      match bucketAt s.hashArr index with
      | none => .fault
      | some chain =>
        match allocs with
        | 0 => .badAlloc s false
        | allocs + 1 =>
          let s1 : HashSet α :=
            { s with hashArr := s.hashArr.set index.toNat
                        (chain ++ [{ key := key, value := element }]),
                     tableSize := s.tableSize + 1 }
          if overLoaded s1 then resizeAlloc allocs s1 else .done s1 allocs

end HashSet

/-! ## WordChecker.cpp

A `std::string` is the list of its characters, the `Set<std::string>` that a
`WordChecker` refers to is its `contains` function, and the vector `suggest`
is the list of the strings pushed so far. A step returns `none` when it
accesses a character outside the string it reads or modifies. -/

/-- The class `WordChecker`: `words` is the `contains` of the set it refers
to. -/
structure WordChecker where
  words : List Char → Bool

namespace WordChecker

/-- A loop `for (i = start; i < bound; i++) body`: `fuel` bounds the number of
iterations, and `forLoop` runs it with the `bound - start` iterations the
loop has when no iteration stops it. -/
def loopFrom {σ : Type} (body : Nat → σ → Option σ) : Nat → Nat → σ → Option σ
  | 0, _, st => some st
  | fuel + 1, i, st =>
    match body i st with
    | none => none
    | some st1 => loopFrom body fuel (i + 1) st1

/-- The loop `for (int i = start; i < bound; i++) body`. -/
def forLoop {σ : Type} (start bound : Nat) (body : Nat → σ → Option σ) (st : σ) : Option σ :=
  loopFrom body (bound - start) start st

/-- The value `word.size() - 1` in the unsigned 64-bit type `size_t`: `2^64 - 1`
for the empty string. -/
def sizeMinusOne (word : List Char) : Nat := (word.length + 2 ^ 64 - 1) % 2 ^ 64

/-- The string `alphabet` of `addChars` and `repChar`. -/
def alphabet : List Char := "ABCDEFGHIJKLMNOPQRSTUVWXYX".toList

/-- The statements `if (words.contains(s)) suggest.push_back(s);`. -/
def pushIfWord (c : WordChecker) (s : List Char) (suggest : List (List Char)) :
    List (List Char) :=
  if c.words s then suggest ++ [s] else suggest

/-- The call `std::swap(s[i], s[i+1])`; `none` unless both positions are
inside `s`. -/
def swapAt (s : List Char) (i : Nat) : Option (List Char) :=
  match s[i]?, s[i + 1]? with
  | some a, some b => some ((s.set i b).set (i + 1) a)
  | _, _ => none

/-- The member function `swapAdjacent`. -/
def swapAdjacent (c : WordChecker) (word : List Char) (suggest : List (List Char)) :
    Option (List (List Char)) :=
  forLoop 0 (sizeMinusOne word)
    (fun i suggest =>
      match swapAt word i with
      | none => none
      | some s => some (pushIfWord c s suggest))
    suggest

/-- The call `s.insert(i, "0")`; `none` when `i > s.size()` (the source then
throws `std::out_of_range`). -/
def insertAt (s : List Char) (i : Nat) (ch : Char) : Option (List Char) :=
  if i ≤ s.length then some (s.take i ++ [ch] ++ s.drop i) else none

/-- The assignment `s[i] = ch`; `none` when `i` is not inside `s`. -/
def setAt (s : List Char) (i : Nat) (ch : Char) : Option (List Char) :=
  if i < s.length then some (s.set i ch) else none

/-- The body of the inner loop of `addChars` and `repChar`:
`s[i] = alphabet[j]; if (words.contains(s)) suggest.push_back(s);`. The state
is the string `s` and the vector `suggest`. -/
def tryLetter (c : WordChecker) (i : Nat) (st : List Char × List (List Char)) (ch : Char) :
    Option (List Char × List (List Char)) :=
  match setAt st.1 i ch with
  | none => none
  | some s => some (s, pushIfWord c s st.2)

/-- The inner loop of `addChars` and `repChar`:
`for (char j = 0; j < alphabet.size(); j++) { s[i] = alphabet[j]; ... }`. -/
def tryAlphabet (c : WordChecker) (i : Nat) (st : List Char × List (List Char)) :
    Option (List Char × List (List Char)) :=
  alphabet.foldlM (tryLetter c i) st

/-- The member function `addChars`. -/
def addChars (c : WordChecker) (word : List Char) (suggest : List (List Char)) :
    Option (List (List Char)) :=
  forLoop 1 word.length
    (fun i suggest =>
      match insertAt word i '0' with
      | none => none
      | some s =>
        match tryAlphabet c i (s, suggest) with
        | none => none
        | some st => some st.2)
    suggest

/-- The read `word[i]` of a `const std::string`: the character at `i`, the
null character at `i == word.size()`, and `none` beyond. -/
def charAt (word : List Char) (i : Nat) : Option Char :=
  if i < word.length then word[i]? else if i = word.length then some (Char.ofNat 0) else none

/-- The member function `delEach`. The test `word[i] == word[i+1]` is
evaluated before `i < word.size()-1`. -/
def delEach (c : WordChecker) (word : List Char) (suggest : List (List Char)) :
    Option (List (List Char)) :=
  forLoop 0 word.length
    (fun i suggest =>
      match charAt word i, charAt word (i + 1) with
      | some a, some b =>
        if a = b ∧ i < sizeMinusOne word then some suggest
        else some (pushIfWord c (word.eraseIdx i) suggest)
      | _, _ => none)
    suggest

/-- The member function `repChar`. -/
def repChar (c : WordChecker) (word : List Char) (suggest : List (List Char)) :
    Option (List (List Char)) :=
  forLoop 0 word.length
    (fun i suggest =>
      match tryAlphabet c i (word, suggest) with
      | none => none
      | some st => some st.2)
    suggest

/-- The member function `splitWord`. -/
def splitWord (c : WordChecker) (word : List Char) (suggest : List (List Char)) :
    Option (List (List Char)) :=
  forLoop 1 word.length
    (fun i suggest =>
      if c.words (word.take i) then
        if c.words (word.drop i) then
          match insertAt word i ' ' with
          | none => none
          | some s => some (suggest ++ [s])
        else some suggest
      else some suggest)
    suggest

/-- The member function `wordExists`. -/
def wordExists (c : WordChecker) (word : List Char) : Bool := c.words word

/-- The member function `findSuggestions`. -/
def findSuggestions (c : WordChecker) (word : List Char) : Option (List (List Char)) :=
  ((((swapAdjacent c word []).bind (addChars c word)).bind (delEach c word)).bind
    (repChar c word)).bind (splitWord c word)

/-- A `WordChecker` over the set that holds exactly the given words. -/
def ofWords (ws : List String) : WordChecker :=
  { words := fun w => decide (w ∈ ws.map String.toList) }

end WordChecker

/-! ## HashSet.hpp: the bucket index -/

namespace HashSet

/-- The statements `int key = hashFunction(element); int index = key%capacity;`
of `add` and `contains`, as a function of the hash code and the capacity: the
`unsigned int` code is converted to `int`, and `%` is the remainder of the
division that truncates toward zero, which has the sign of `key`. -/
def bucketIndex (hashCode : Nat) (capacity : Int) : Int :=
  Int.tmod (unsignedToInt hashCode) capacity

end HashSet

/-! ## AVLSet: lemmas -/

namespace AVLSet

variable {α : Type}

theorem inorderR_mk (l r : Node α) (v : α) (h : Int) :
    inorderR (.mk l v h r) = inorderR l ++ [v] ++ inorderR r := by
  cases l <;> cases r <;> simp [inorderR, Node.isNull]

theorem inorder_eq (s : AVLSet α) : s.inorder = inorderR s.root := by
  cases s with
  | mk root => cases root <;> simp [inorder, inorderR, Node.isNull]

theorem inorderR_null : inorderR (.null : Node α) = [] := rfl

theorem inorderR_createNode (e : α) : inorderR (createNode e) = [e] := by
  simp [createNode, inorderR, Node.isNull]

theorem isNull_iff (t : Node α) : t.isNull = true ↔ t = .null := by
  cases t <;> simp [Node.isNull]

theorem mem_inorderR_addNode [LinearOrder α] (t : Node α) (e x : α)
    (ht : t.isNull = false) :
    x ∈ inorderR (addNode t e) ↔ x = e ∨ x ∈ inorderR t := by
  induction t with
  | null => simp [Node.isNull] at ht
  | mk l v h r ihl ihr =>
    unfold addNode
    split_ifs with h1 h2 h3 h4
    · rw [isNull_iff] at h2
      subst h2
      simp only [inorderR_mk, inorderR_createNode, inorderR_null, List.mem_append,
        List.mem_singleton, List.not_mem_nil]
      tauto
    · simp only [inorderR_mk, List.mem_append, List.mem_singleton]
      rw [ihr (by simpa using h2)]
      simp only [or_assoc, or_left_comm]
    · rw [isNull_iff] at h4
      subst h4
      simp only [inorderR_mk, inorderR_createNode, inorderR_null, List.mem_append,
        List.mem_singleton, List.not_mem_nil]
      tauto
    · simp only [inorderR_mk, List.mem_append, List.mem_singleton]
      rw [ihl (by simpa using h4)]
      simp only [or_assoc]
    · have hev : e = v := le_antisymm (not_lt.mp h1) (not_lt.mp h3)
      subst hev
      simp only [inorderR_mk, List.mem_append, List.mem_singleton]
      tauto

theorem bst_createNode [LinearOrder α] (e : α) : (createNode e).Bst := by
  simp [createNode, Node.Bst, inorderR]

theorem bst_addNode [LinearOrder α] (t : Node α) (e : α) (hb : t.Bst) :
    (addNode t e).Bst := by
  induction t with
  | null => simp [addNode, Node.Bst]
  | mk l v h r ihl ihr =>
    obtain ⟨hl, hr, hlt, hgt⟩ := hb
    unfold addNode
    split_ifs with h1 h2 h3 h4
    · refine ⟨hl, bst_createNode e, hlt, ?_⟩
      intro x hx
      rw [inorderR_createNode, List.mem_singleton] at hx
      exact hx ▸ h1
    · refine ⟨hl, ihr hr, hlt, ?_⟩
      intro x hx
      rw [mem_inorderR_addNode r e x (by simpa using h2)] at hx
      rcases hx with hx | hx
      · exact hx ▸ h1
      · exact hgt x hx
    · refine ⟨bst_createNode e, hr, ?_, hgt⟩
      intro x hx
      rw [inorderR_createNode, List.mem_singleton] at hx
      exact hx ▸ h3
    · refine ⟨ihl hl, hr, ?_, hgt⟩
      intro x hx
      rw [mem_inorderR_addNode l e x (by simpa using h4)] at hx
      rcases hx with hx | hx
      · exact hx ▸ h3
      · exact hlt x hx
    · exact ⟨hl, hr, hlt, hgt⟩

theorem containsR_eq [LinearOrder α] (t : Node α) (e : α) (hb : t.Bst) :
    containsR e t = decide (e ∈ inorderR t) := by
  induction t with
  | null => simp [containsR, inorderR]
  | mk l v h r ihl ihr =>
    obtain ⟨hl, hr, hlt, hgt⟩ := hb
    unfold containsR
    have hnl : ∀ t : Node α, t.isNull = true → e ∉ inorderR t := by
      intro t ht
      rw [isNull_iff] at ht
      subst ht
      simp [inorderR]
    split_ifs with h1 h2 h3 h4
    · have := hnl r h2
      have h5 : e ∉ inorderR l := fun hm => lt_asymm h1 (hlt e hm)
      simp [inorderR_mk, this, h5, ne_of_gt h1]
    · rw [ihr hr]
      have h5 : e ∉ inorderR l := fun hm => lt_asymm h1 (hlt e hm)
      simp [inorderR_mk, h5, ne_of_gt h1]
    · have := hnl l h4
      have h5 : e ∉ inorderR r := fun hm => lt_asymm h3 (hgt e hm)
      simp [inorderR_mk, this, h5, ne_of_lt h3]
    · rw [ihl hl]
      have h5 : e ∉ inorderR r := fun hm => lt_asymm h3 (hgt e hm)
      simp [inorderR_mk, h5, ne_of_lt h3]
    · have hev : e = v := le_antisymm (not_lt.mp h1) (not_lt.mp h3)
      simp [inorderR_mk, hev]

theorem sorted_inorderR [LinearOrder α] (t : Node α) (hb : t.Bst) :
    (inorderR t).Pairwise (· < ·) := by
  induction t with
  | null => simp [inorderR]
  | mk l v h r ihl ihr =>
    obtain ⟨hl, hr, hlt, hgt⟩ := hb
    rw [inorderR_mk, List.append_assoc, List.pairwise_append]
    refine ⟨ihl hl, ?_, ?_⟩
    · rw [List.singleton_append, List.pairwise_cons]
      exact ⟨hgt, ihr hr⟩
    · intro a ha b hb
      rw [List.singleton_append, List.mem_cons] at hb
      rcases hb with hb | hb
      · exact hb ▸ hlt a ha
      · exact lt_trans (hlt a ha) (hgt b hb)

theorem contains_eq [LinearOrder α] (s : AVLSet α) (e : α) (hb : s.root.Bst) :
    s.contains e = decide (e ∈ inorderR s.root) := by
  unfold contains
  split_ifs with h
  · rw [isNull_iff] at h
    simp [h, inorderR]
  · exact containsR_eq s.root e hb

theorem bst_add [LinearOrder α] (s : AVLSet α) (e : α) (hb : s.root.Bst) :
    (s.add e).root.Bst := by
  unfold add
  split_ifs with h
  · exact bst_createNode e
  · exact bst_addNode s.root e hb

theorem mem_add [LinearOrder α] (s : AVLSet α) (e x : α) :
    x ∈ inorderR (s.add e).root ↔ x = e ∨ x ∈ inorderR s.root := by
  unfold add
  split_ifs with h
  · rw [isNull_iff] at h
    simp [h, inorderR_createNode, inorderR]
  · exact mem_inorderR_addNode s.root e x (by simpa using h)

theorem foldl_add_spec [LinearOrder α] (xs : List α) (s : AVLSet α) (hb : s.root.Bst) :
    (xs.foldl add s).root.Bst ∧
      ∀ x, x ∈ inorderR (xs.foldl add s).root ↔ x ∈ xs ∨ x ∈ inorderR s.root := by
  induction xs generalizing s with
  | nil => simp [hb]
  | cons a xs ih =>
    obtain ⟨h1, h2⟩ := ih (s.add a) (bst_add s a hb)
    refine ⟨h1, fun x => ?_⟩
    rw [List.foldl_cons, h2, mem_add, List.mem_cons]
    tauto

theorem avl_addAll_spec [LinearOrder α] (xs : List α) :
    (addAll xs).root.Bst ∧ ∀ x, x ∈ inorderR (addAll xs).root ↔ x ∈ xs := by
  obtain ⟨h1, h2⟩ := foldl_add_spec xs (empty : AVLSet α) (by simp [empty, Node.Bst])
  refine ⟨h1, fun x => ?_⟩
  rw [addAll, h2]
  simp [empty, inorderR]

/-- C1. Membership in the tree set: after any finite sequence of `add` calls
on an empty `AVLSet` over a linearly ordered element type, `contains(x)` is
true exactly for the elements `x` that occur in the sequence. -/
theorem avl_contains_iff_added [LinearOrder α] (xs : List α) (x : α) :
    (addAll xs).contains x = decide (x ∈ xs) := by
  obtain ⟨h1, h2⟩ := avl_addAll_spec xs
  rw [contains_eq _ _ h1]
  simp [h2]

/-- C7. Ordering invariant: in every state reached from an empty `AVLSet` by
`add` calls, the elements passed to the visitor by `inorder` form a strictly
ascending sequence. -/
theorem avl_inorder_strictly_ascending [LinearOrder α] (xs : List α) :
    List.Sorted (· < ·) (addAll xs).inorder := by
  rw [inorder_eq]
  exact sorted_inorderR _ (avl_addAll_spec xs).1

/-- C3. Balance invariant, evaluated on the source: after `add(1)`, `add(2)`,
`add(3)` on an empty set the tree is the chain `1 → 2 → 3`; its root has an
absent left subtree (height `-1`) and a right subtree of height `1`, so the
tree is not balanced. -/
theorem avl_unbalanced_after_three_adds :
    (addAll [1, 2, 3] : AVLSet Int).root =
        .mk .null 1 2 (.mk .null 2 1 (.mk .null 3 0 .null)) ∧
      (addAll [1, 2, 3] : AVLSet Int).root.isBalanced = false := by
  decide

/-- C4. The function `size`, evaluated on the source: after `add(1)` on an
empty set, `contains(1)` is true and `size()` is `0`, not `1`. -/
theorem avl_size_is_zero_after_add :
    (addAll [1] : AVLSet Int).contains 1 = true ∧ (addAll [1] : AVLSet Int).size = 0 := by
  decide

/-- C6. The scenario of adding `1, 2, ..., 7` in ascending order, evaluated on
the source: `inorder` visits `[1, 2, 3, 4, 5, 6, 7]`, but `height()` is `6`,
not `2`. -/
theorem avl_scenario_one_to_seven :
    (addAll [1, 2, 3, 4, 5, 6, 7] : AVLSet Int).inorder = [1, 2, 3, 4, 5, 6, 7] ∧
      (addAll [1, 2, 3, 4, 5, 6, 7] : AVLSet Int).height = 6 := by
  decide

/-- C8. Cached heights, evaluated on the source: after `add(5)`, `add(3)`,
`add(2)`, `add(6)` the root has a left subtree of height `1` and a right leaf,
but its cached height is `1`: the cached heights are not all
`1 + max(height(left), height(right))`, and `height()` returns `1` for a tree
of height `2`. -/
theorem avl_cached_height_wrong :
    (addAll [5, 3, 2, 6] : AVLSet Int).root =
        .mk (.mk (.mk .null 2 0 .null) 3 1 .null) 5 1 (.mk .null 6 0 .null) ∧
      (addAll [5, 3, 2, 6] : AVLSet Int).root.heightsCorrect = false ∧
      (addAll [5, 3, 2, 6] : AVLSet Int).height = 1 ∧
      (addAll [5, 3, 2, 6] : AVLSet Int).root.trueHeight = 2 := by
  decide

/-- C9. Adding a present element, evaluated on the source: in the state after
`add(5)`, `add(3)`, `add(2)`, `add(6)` the element `2` is contained, yet
`add(2)` changes the tree: the cached height of the root, and with it the
result of `height()`, goes from `1` to `2`. -/
theorem avl_add_present_changes_height :
    (addAll [5, 3, 2, 6] : AVLSet Int).contains 2 = true ∧
      (addAll [5, 3, 2, 6] : AVLSet Int).add 2 ≠ addAll [5, 3, 2, 6] ∧
      (addAll [5, 3, 2, 6] : AVLSet Int).height = 1 ∧
      ((addAll [5, 3, 2, 6] : AVLSet Int).add 2).height = 2 := by
  decide

end AVLSet

/-! ## HashSet: lemmas -/

namespace HashSet

variable {α : Type}

theorem unsignedToInt_of_lt {u : Nat} (h : u < 2 ^ 31) : unsignedToInt u = (u : Int) := by
  unfold unsignedToInt
  have h1 : u % 2 ^ 32 = u := Nat.mod_eq_of_lt (by omega)
  rw [h1, if_pos h]

theorem intToUnsigned_of_nonneg {i : Int} (h : 0 ≤ i) : intToUnsigned i = i.toNat := by
  unfold intToUnsigned
  rw [if_neg (by omega)]

theorem bucketAt_of_nonneg (arr : List (List (hashNode α))) {i : Int} (h : 0 ≤ i) :
    bucketAt arr i = arr[i.toNat]? := by
  unfold bucketAt
  rw [if_neg (by omega)]

theorem chainContains_eq [DecidableEq α] (e : α) (chain : List (hashNode α)) :
    chainContains e chain = decide (e ∈ chain.map hashNode.value) := by
  induction chain with
  | nil => simp [chainContains]
  | cons c next ih =>
    unfold chainContains
    split_ifs with h
    · simp [h]
    · rw [ih]
      have h2 : ¬ e = c.value := fun h3 => h h3.symm
      simp [h2]

theorem flatten_set_append_perm {β : Type} (arr : List (List β)) (i : Nat) (chain : List β)
    (n : β) (h : arr[i]? = some chain) :
    (arr.set i (chain ++ [n])).flatten.Perm (n :: arr.flatten) := by
  induction arr generalizing i with
  | nil => simp at h
  | cons c cs ih =>
    cases i with
    | zero =>
      simp only [List.getElem?_cons_zero, Option.some.injEq] at h
      subst h
      simp only [List.set_cons_zero, List.flatten_cons, List.append_assoc, List.singleton_append]
      exact List.perm_middle
    | succ i =>
      simp only [List.getElem?_cons_succ] at h
      simp only [List.set_cons_succ, List.flatten_cons]
      exact ((ih i h).append_left c).trans List.perm_middle

theorem placed_set {cap : Int} {arr : List (List (hashNode α))} {i : Nat}
    {chain : List (hashNode α)} (hP : Placed cap arr) (h : arr[i]? = some chain)
    (k : Int) (v : α) (hk : Int.tmod k cap = (i : Int)) :
    Placed cap (arr.set i (chain ++ [{ key := k, value := v }])) := by
  intro j c hj n hn
  rw [List.getElem?_set] at hj
  split_ifs at hj with h1 h2
  · simp only [Option.some.injEq] at hj
    subst hj
    subst h1
    rw [List.mem_append, List.mem_singleton] at hn
    rcases hn with hn | hn
    · exact hP i chain h n hn
    · rw [hn]; exact hk
  · exact hP j c hj n hn

theorem appendAt_eq (arr : List (List (hashNode α))) {index : Int} (h0 : 0 ≤ index)
    (hlt : index.toNat < arr.length) (k : Int) (v : α) :
    ∃ chain, arr[index.toNat]? = some chain ∧
      appendAt arr index k v = some (arr.set index.toNat (chain ++ [{ key := k, value := v }])) := by
  refine ⟨arr[index.toNat], List.getElem?_eq_getElem hlt, ?_⟩
  unfold appendAt
  rw [bucketAt_of_nonneg arr h0, List.getElem?_eq_getElem hlt]

theorem tmod_index {k cap : Int} (hk : 0 ≤ k) (hc : 0 < cap) :
    0 ≤ Int.tmod k cap ∧ (Int.tmod k cap).toNat < cap.toNat ∧
      (((Int.tmod k cap).toNat : Nat) : Int) = Int.tmod k cap := by
  have h1 := Int.tmod_nonneg cap hk
  have h2 := Int.tmod_lt_of_pos k hc
  refine ⟨h1, ?_, ?_⟩ <;> omega

theorem migrate_spec {newCap : Int} (hc : 0 < newCap) (arr : List (List (hashNode α)))
    (hlen : arr.length = newCap.toNat) (hP : Placed newCap arr) (n : hashNode α)
    (hn : 0 ≤ n.key) :
    ∃ arr1, migrate newCap arr n = some arr1 ∧ arr1.length = newCap.toNat ∧
      Placed newCap arr1 ∧ arr1.flatten.Perm (n :: arr.flatten) := by
  obtain ⟨h0, h1, h2⟩ := tmod_index hn hc
  obtain ⟨chain, hc1, hc2⟩ := appendAt_eq arr h0 (by rw [hlen]; exact h1) n.key n.value
  refine ⟨_, hc2, by rw [List.length_set, hlen], placed_set hP hc1 _ _ h2.symm, ?_⟩
  exact flatten_set_append_perm arr _ chain _ hc1

theorem foldlM_migrate_spec {newCap : Int} (hc : 0 < newCap) (chain : List (hashNode α))
    (arr : List (List (hashNode α))) (hlen : arr.length = newCap.toNat)
    (hP : Placed newCap arr) (hk : ∀ n ∈ chain, 0 ≤ n.key) :
    ∃ arr1, chain.foldlM (migrate newCap) arr = some arr1 ∧ arr1.length = newCap.toNat ∧
      Placed newCap arr1 ∧ arr1.flatten.Perm (arr.flatten ++ chain) := by
  induction chain generalizing arr with
  | nil => exact ⟨arr, rfl, hlen, hP, by simp⟩
  | cons n next ih =>
    obtain ⟨arr1, e1, l1, p1, q1⟩ := migrate_spec hc arr hlen hP n (hk n (List.mem_cons_self _ _))
    obtain ⟨arr2, e2, l2, p2, q2⟩ :=
      ih arr1 l1 p1 (fun m hm => hk m (List.mem_cons_of_mem _ hm))
    refine ⟨arr2, ?_, l2, p2, ?_⟩
    · rw [List.foldlM_cons, e1]
      exact e2
    · exact q2.trans ((q1.append_right next).trans List.perm_middle.symm)

theorem fill_spec {newCap : Int} (hc : 0 < newCap) (old : List (List (hashNode α)))
    (hk : ∀ n ∈ old.flatten, 0 ≤ n.key) (k : Nat) (hle : k ≤ old.length)
    (arr : List (List (hashNode α))) (hlen : arr.length = newCap.toNat)
    (hP : Placed newCap arr) :
    ∃ arr1, (List.range k).foldlM
        (fun arr i =>
          match old[i]? with
          | none => none
          | some chain => chain.foldlM (migrate newCap) arr) arr = some arr1 ∧
      arr1.length = newCap.toNat ∧ Placed newCap arr1 ∧
      arr1.flatten.Perm (arr.flatten ++ (old.take k).flatten) := by
  induction k with
  | zero => exact ⟨arr, rfl, hlen, hP, by simp⟩
  | succ k ih =>
    obtain ⟨arr1, e1, l1, p1, q1⟩ := ih (by omega)
    have hlt : k < old.length := by omega
    have hmem : ∀ n ∈ old[k], 0 ≤ n.key := fun n hn =>
      hk n (List.mem_flatten.mpr ⟨old[k], List.getElem_mem hlt, hn⟩)
    obtain ⟨arr2, e2, l2, p2, q2⟩ := foldlM_migrate_spec hc old[k] arr1 l1 p1 hmem
    refine ⟨arr2, ?_, l2, p2, ?_⟩
    · rw [List.range_succ, List.foldlM_append, e1]
      simp only [Option.bind_eq_bind, Option.some_bind, List.foldlM_cons, List.foldlM_nil,
        List.getElem?_eq_getElem hlt]
      rw [e2]
      rfl
    · rw [List.take_succ, List.getElem?_eq_getElem hlt]
      simp only [Option.toList_some, List.flatten_append, List.flatten_cons, List.flatten_nil,
        List.append_nil]
      rw [← List.append_assoc]
      exact q2.trans (q1.append_right _)

theorem placed_replicate (cap : Int) (k : Nat) :
    Placed cap (List.replicate k ([] : List (hashNode α))) := by
  intro j chain hj n hn
  rw [List.getElem?_replicate] at hj
  split_ifs at hj
  simp only [Option.some.injEq] at hj
  subst hj
  simp at hn

theorem flatten_replicate_nil {β : Type} (k : Nat) :
    (List.replicate k ([] : List β)).flatten = [] := by
  induction k with
  | zero => rfl
  | succ k ih => simp [List.replicate_succ, ih]

/-- What `resize` does to a table whose keys are non-negative. -/
theorem resize_spec (s : HashSet α) (hc : 0 < s.capacity)
    (hlen : s.hashArr.length = s.capacity.toNat) (hk : ∀ n ∈ s.nodes, 0 ≤ n.key) :
    ∃ arr, resize s = some { s with hashArr := arr, capacity := s.capacity * 2 } ∧
      arr.length = (s.capacity * 2).toNat ∧ Placed (s.capacity * 2) arr ∧
      arr.flatten.Perm s.nodes := by
  have hc2 : 0 < s.capacity * 2 := by omega
  obtain ⟨arr, e, l, p, q⟩ := fill_spec hc2 s.hashArr hk s.capacity.toNat (by omega)
    (List.replicate (s.capacity * 2).toNat []) (by simp) (placed_replicate _ _)
  refine ⟨arr, ?_, l, p, ?_⟩
  · unfold resize
    simp only [e]
  · rw [flatten_replicate_nil, List.nil_append, ← hlen, List.take_length] at q
    exact q

theorem wf_create (f : α → Nat) : WF f (create f) where
  fn := rfl
  capPos := by simp [create, DEFAULT_CAPACITY]
  len := by simp [create, DEFAULT_CAPACITY]
  keyed := by simp [nodes, create, flatten_replicate_nil]
  placed := placed_replicate _ _
  nodup := by simp [values, nodes, create, flatten_replicate_nil]
  count := by simp [nodes, create, flatten_replicate_nil]

/-- The bucket selected by the hash code of `x` holds `x` exactly when the
table does. -/
theorem bucket_mem_iff {f : α → Nat} {s : HashSet α} (hwf : WF f s) (x : α) {j : Nat}
    (hj : (j : Int) = Int.tmod (f x : Int) s.capacity) {chain : List (hashNode α)}
    (hchain : s.hashArr[j]? = some chain) :
    x ∈ chain.map hashNode.value ↔ x ∈ s.values := by
  constructor
  · intro hx
    obtain ⟨n, hn, rfl⟩ := List.mem_map.mp hx
    exact List.mem_map.mpr ⟨n, List.mem_flatten.mpr ⟨chain, List.getElem?_mem hchain, hn⟩, rfl⟩
  · intro hx
    obtain ⟨n, hn, rfl⟩ := List.mem_map.mp hx
    obtain ⟨l, hl, hnl⟩ := List.mem_flatten.mp hn
    obtain ⟨i, hi⟩ := List.getElem?_of_mem hl
    have h1 := hwf.placed i l hi n hnl
    rw [hwf.keyed n hn, ← hj] at h1
    have h2 : j = i := by exact_mod_cast h1
    subst h2
    rw [hchain] at hi
    simp only [Option.some.injEq] at hi
    subst hi
    exact List.mem_map.mpr ⟨n, hnl, rfl⟩

/-- The bucket that `add` and `contains` select for `x` exists. -/
theorem bucket_exists {f : α → Nat} {s : HashSet α} (hwf : WF f s) (x : α) :
    ∃ (j : Nat) (chain : List (hashNode α)),
      (j : Int) = Int.tmod (f x : Int) s.capacity ∧ 0 ≤ Int.tmod (f x : Int) s.capacity ∧
      (Int.tmod (f x : Int) s.capacity).toNat = j ∧ j < s.hashArr.length ∧
      s.hashArr[j]? = some chain := by
  obtain ⟨h0, h1, h2⟩ := tmod_index (Int.natCast_nonneg (f x)) hwf.capPos
  have hlt : (Int.tmod (f x : Int) s.capacity).toNat < s.hashArr.length := by
    rw [hwf.len]; exact h1
  exact ⟨_, _, h2, h0, rfl, hlt, List.getElem?_eq_getElem hlt⟩

theorem isElementAtIndex_spec [DecidableEq α] {f : α → Nat} {s : HashSet α} (hwf : WF f s)
    (x : α) :
    s.isElementAtIndex x (intToUnsigned (Int.tmod (f x : Int) s.capacity)) =
      some (decide (x ∈ s.values)) := by
  obtain ⟨j, chain, hj, h0, hj2, _, hchain⟩ := bucket_exists hwf x
  unfold isElementAtIndex
  simp only [intToUnsigned_of_nonneg h0, hj2, hchain, chainContains_eq]
  congr 1
  exact decide_eq_decide.mpr (bucket_mem_iff hwf x hj hchain)

theorem addNoResize_present [DecidableEq α] {f : α → Nat} (hcode : ∀ x, f x < 2 ^ 31)
    {s : HashSet α} (hwf : WF f s) (x : α) (hx : x ∈ s.values) :
    addNoResize s x = some (s, false) := by
  unfold addNoResize
  simp only [hwf.fn, unsignedToInt_of_lt (hcode x), isElementAtIndex_spec hwf x, hx,
    decide_True]

theorem addNoResize_absent [DecidableEq α] {f : α → Nat} (hcode : ∀ x, f x < 2 ^ 31)
    {s : HashSet α} (hwf : WF f s) (x : α) (hx : x ∉ s.values) :
    ∃ s1, addNoResize s x = some (s1, true) ∧ WF f s1 ∧ s1.capacity = s.capacity ∧
      s1.tableSize = s.tableSize + 1 ∧ s1.values.Perm (x :: s.values) := by
  obtain ⟨j, chain, hj, h0, hj2, hlt, hchain⟩ := bucket_exists hwf x
  obtain ⟨chain1, hc1, hc2⟩ := appendAt_eq s.hashArr h0 (by rw [hj2]; exact hlt) (f x : Int) x
  rw [hj2] at hc1 hc2
  rw [hchain] at hc1
  simp only [Option.some.injEq] at hc1
  subst hc1
  have hperm := flatten_set_append_perm s.hashArr j chain { key := (f x : Int), value := x } hchain
  refine ⟨{ s with hashArr := s.hashArr.set j (chain ++ [{ key := (f x : Int), value := x }]),
                   tableSize := s.tableSize + 1 }, ?_, ?_, rfl, rfl, ?_⟩
  · unfold addNoResize
    simp only [hwf.fn, unsignedToInt_of_lt (hcode x), isElementAtIndex_spec hwf x, hx,
      decide_False, hc2]
  · refine ⟨hwf.fn, hwf.capPos, ?_, ?_, ?_, ?_, ?_⟩
    · simp only [List.length_set]; exact hwf.len
    · intro n hn
      rcases List.mem_cons.mp (hperm.subset hn) with h | h
      · rw [h]
      · exact hwf.keyed n h
    · exact placed_set hwf.placed hchain _ _ hj.symm
    · have h2 := hperm.map hashNode.value
      refine (h2.nodup_iff).mpr ?_
      rw [List.map_cons, List.nodup_cons]
      exact ⟨hx, hwf.nodup⟩
    · simp only [nodes] at hperm ⊢
      rw [hperm.length_eq, List.length_cons, hwf.count]
      simp [nodes]
  · exact hperm.map hashNode.value

theorem resize_wf {f : α → Nat} {s : HashSet α} (hwf : WF f s) :
    ∃ s2, resize s = some s2 ∧ WF f s2 ∧ s2.capacity = s.capacity * 2 ∧
      s2.tableSize = s.tableSize ∧ s2.values.Perm s.values := by
  have hk : ∀ n ∈ s.nodes, 0 ≤ n.key := fun n hn => by
    rw [hwf.keyed n hn]; exact Int.natCast_nonneg _
  obtain ⟨arr, e, l, p, q⟩ := resize_spec s hwf.capPos hwf.len hk
  refine ⟨_, e, ⟨hwf.fn, ?_, l, ?_, p, ?_, ?_⟩, rfl, rfl, q.map hashNode.value⟩
  · show 0 < s.capacity * 2
    have := hwf.capPos
    omega
  · intro n hn
    exact hwf.keyed n (q.subset hn)
  · exact ((q.map hashNode.value).nodup_iff).mpr hwf.nodup
  · show s.tableSize = ((arr.flatten).length : Int)
    rw [q.length_eq]
    exact hwf.count

theorem good_create (f : α → Nat) : Good f (create f) where
  wf := wf_create f
  load := by simp [create, DEFAULT_CAPACITY]
  capMin := by simp [create, DEFAULT_CAPACITY]
  grown := Or.inl (by simp [create, DEFAULT_CAPACITY])

theorem add_spec [DecidableEq α] {f : α → Nat} (hcode : ∀ x, f x < 2 ^ 31)
    {s : HashSet α} (hg : Good f s) (x : α) :
    ∃ s1, add s x = some s1 ∧ Good f s1 ∧ (∀ y, y ∈ s1.values ↔ y = x ∨ y ∈ s.values) ∧
      (x ∈ s.values → s1 = s) ∧ (x ∉ s.values → s1.tableSize = s.tableSize + 1) := by
  by_cases hx : x ∈ s.values
  · refine ⟨s, ?_, hg, ?_, fun _ => rfl, fun h => absurd hx h⟩
    · unfold add
      simp only [addNoResize_present hcode hg.wf x hx]
    · intro y
      constructor
      · exact Or.inr
      · rintro (h | h)
        · exact h ▸ hx
        · exact h
  · obtain ⟨s1, e1, wf1, c1, t1, p1⟩ := addNoResize_absent hcode hg.wf x hx
    have hload := hg.load
    have hmin := hg.capMin
    have hgrown := hg.grown
    by_cases ho : overLoaded s1 = true
    · obtain ⟨s2, e2, wf2, c2, t2, p2⟩ := resize_wf wf1
      refine ⟨s2, ?_, ⟨wf2, ?_, ?_, ?_⟩, ?_, fun h => absurd h hx, fun _ => by rw [t2, t1]⟩
      · unfold add
        simp only [e1, ho, if_true, e2]
      · rw [c2, t2, c1, t1]; omega
      · rw [c2, c1]; omega
      · right
        simp only [overLoaded, decide_eq_true_eq] at ho
        rw [c2, t2]; omega
      · intro y
        rw [(p2.trans p1).mem_iff, List.mem_cons]
    · refine ⟨s1, ?_, ⟨wf1, ?_, ?_, ?_⟩, ?_, fun h => absurd h hx, fun _ => t1⟩
      · unfold add
        simp only [e1, ho, Bool.false_eq_true, if_false]
      · simp only [overLoaded, decide_eq_true_eq] at ho
        omega
      · rw [c1]; exact hmin
      · rw [c1, t1]
        rcases hgrown with h | h
        · exact Or.inl h
        · exact Or.inr (by omega)
      · intro y
        rw [p1.mem_iff, List.mem_cons]

theorem foldlM_add_spec [DecidableEq α] {f : α → Nat} (hcode : ∀ x, f x < 2 ^ 31)
    (xs : List α) (s : HashSet α) (hg : Good f s) :
    ∃ s1, xs.foldlM add s = some s1 ∧ Good f s1 ∧
      (∀ y, y ∈ s1.values ↔ y ∈ xs ∨ y ∈ s.values) ∧
      s1.tableSize ≤ s.tableSize + (xs.length : Int) := by
  induction xs generalizing s with
  | nil => exact ⟨s, rfl, hg, by simp, by simp⟩
  | cons a xs ih =>
    obtain ⟨s1, e1, g1, m1, same, fresh⟩ := add_spec hcode hg a
    obtain ⟨s2, e2, g2, m2, t2⟩ := ih s1 g1
    refine ⟨s2, ?_, g2, ?_, ?_⟩
    · rw [List.foldlM_cons, e1]
      exact e2
    · intro y
      rw [m2, m1, List.mem_cons]
      tauto
    · have h1 : s1.tableSize ≤ s.tableSize + 1 := by
        by_cases hx : a ∈ s.values
        · rw [same hx]; omega
        · rw [fresh hx]
      simp only [List.length_cons, Nat.cast_add, Nat.cast_one]
      omega

theorem hash_addAll_spec [DecidableEq α] {f : α → Nat} (hcode : ∀ x, f x < 2 ^ 31)
    (xs : List α) :
    ∃ s, addAll f xs = some s ∧ Good f s ∧ (∀ y, y ∈ s.values ↔ y ∈ xs) ∧
      s.tableSize ≤ (xs.length : Int) := by
  obtain ⟨s, e, g, m, t⟩ := foldlM_add_spec hcode xs (create f) (good_create f)
  refine ⟨s, e, g, fun y => ?_, ?_⟩
  · rw [m]
    simp [values, nodes, create, flatten_replicate_nil]
  · simpa [create] using t

/-- While fewer than `2^29` elements have been added, the values that the
source computes in `int` arithmetic (`tableSize` after `tableSize++`,
`capacity` after `capacity * 2`) are below `2^31`. -/
theorem capacity_bound [DecidableEq α] {f : α → Nat} (hcode : ∀ x, f x < 2 ^ 31)
    (xs : List α) (hlen : xs.length < 2 ^ 29) :
    ∃ s, addAll f xs = some s ∧ s.tableSize < 2 ^ 31 ∧ s.capacity < 2 ^ 31 := by
  obtain ⟨s, e, g, _, t⟩ := hash_addAll_spec hcode xs
  have h1 := g.grown
  have h2 := g.load
  refine ⟨s, e, ?_, ?_⟩
  · omega
  · rcases h1 with h | h
    · rw [h]; norm_num
    · omega

theorem addNoResize_shape [DecidableEq α] {s s1 : HashSet α} {x : α} {b : Bool}
    (h : addNoResize s x = some (s1, b)) :
    s1.capacity = s.capacity ∧
      ((b = false ∧ s1 = s) ∨ (b = true ∧ s1.tableSize = s.tableSize + 1)) := by
  unfold addNoResize at h
  split at h
  · simp at h
  · simp only at h
    split at h
    · simp at h
    · simp only [Option.some.injEq, Prod.mk.injEq] at h
      obtain ⟨h1, h2⟩ := h
      subst h1
      exact ⟨rfl, Or.inl ⟨h2.symm, rfl⟩⟩
    · split at h
      · simp at h
      · simp only [Option.some.injEq, Prod.mk.injEq] at h
        obtain ⟨h1, h2⟩ := h
        subst h1
        exact ⟨rfl, Or.inr ⟨h2.symm, rfl⟩⟩

theorem resize_shape {s s2 : HashSet α} (h : resize s = some s2) :
    s2.capacity = s.capacity * 2 ∧ s2.tableSize = s.tableSize := by
  unfold resize at h
  simp only at h
  split at h
  · simp at h
  · simp only [Option.some.injEq] at h
    subst h
    exact ⟨rfl, rfl⟩

/-- The load bound is kept by every `add` that completes, whatever the hash
function. -/
theorem add_load [DecidableEq α] {s s1 : HashSet α} {x : α} (h : add s x = some s1)
    (h0 : 0 ≤ s.tableSize) (hmin : 10 ≤ s.capacity) (hload : 5 * s.tableSize ≤ 4 * s.capacity) :
    0 ≤ s1.tableSize ∧ 10 ≤ s1.capacity ∧ 5 * s1.tableSize ≤ 4 * s1.capacity := by
  unfold add at h
  split at h
  · simp at h
  · rename_i t e
    simp only [Option.some.injEq] at h
    subst h
    obtain ⟨c, hb | hb⟩ := addNoResize_shape e
    · rw [hb.2]; exact ⟨h0, hmin, hload⟩
    · simp at hb
  · rename_i t e
    obtain ⟨c, hb | hb⟩ := addNoResize_shape e
    · simp at hb
    · split_ifs at h with ho
      · obtain ⟨c2, t2⟩ := resize_shape h
        rw [c2, t2, c, hb.2]
        omega
      · simp only [Option.some.injEq] at h
        subst h
        simp only [overLoaded, decide_eq_true_eq] at ho
        rw [c, hb.2]
        rw [c] at ho
        omega

theorem foldlM_add_load [DecidableEq α] (xs : List α) (s s1 : HashSet α)
    (h : xs.foldlM add s = some s1)
    (h0 : 0 ≤ s.tableSize) (hmin : 10 ≤ s.capacity) (hload : 5 * s.tableSize ≤ 4 * s.capacity) :
    0 ≤ s1.tableSize ∧ 5 * s1.tableSize ≤ 4 * s1.capacity := by
  induction xs generalizing s with
  | nil =>
    simp only [List.foldlM_nil, Option.pure_def, Option.some.injEq] at h
    subst h
    exact ⟨h0, hload⟩
  | cons a xs ih =>
    rw [List.foldlM_cons] at h
    cases e : add s a with
    | none => rw [e] at h; simp at h
    | some s2 =>
      rw [e] at h
      obtain ⟨a0, a1, a2⟩ := add_load e h0 hmin hload
      exact ih s2 h a0 a1 a2

/-- C10. Load-factor invariant: whenever a finite sequence of `add` calls on a
freshly constructed `HashSet` (capacity 10) has completed, the stored count,
which `size()` returns, and the capacity satisfy `5 * count ≤ 4 * capacity`;
`add` doubles the capacity at most once to get there. For a hash function with
codes below `2^31` every such sequence does complete. -/
theorem hashset_load_factor [DecidableEq α] (f : α → Nat) (xs : List α) :
    (∀ s, addAll f xs = some s →
        (s.size : Int) = s.tableSize ∧ 5 * s.tableSize ≤ 4 * s.capacity) ∧
      ((∀ x, f x < 2 ^ 31) → ∃ s, addAll f xs = some s) := by
  refine ⟨fun s h => ?_, fun hcode => ?_⟩
  · obtain ⟨h0, h1⟩ := foldlM_add_load xs (create f) s h (by simp [create])
      (by simp [create, DEFAULT_CAPACITY]) (by simp [create, DEFAULT_CAPACITY])
    refine ⟨?_, h1⟩
    unfold size
    rw [intToUnsigned_of_nonneg h0]
    omega
  · obtain ⟨s, e, _⟩ := hash_addAll_spec hcode xs
    exact ⟨s, e⟩

/-- Witness of C10: the hash function `n % 16` on natural numbers and nine
distinct elements, which force a resize. -/
theorem hashset_load_factor_witness :
    (∀ x : Nat, x % 16 < 2 ^ 31) ∧
      ∃ s, addAll (fun n : Nat => n % 16) [0, 1, 2, 3, 4, 5, 6, 7, 8] = some s ∧
        (s.size : Int) = s.tableSize ∧ 5 * s.tableSize ≤ 4 * s.capacity :=
  ⟨fun x => by omega,
    ((hashset_load_factor (fun n : Nat => n % 16) [0, 1, 2, 3, 4, 5, 6, 7, 8]).2
        (fun x => Nat.lt_of_lt_of_le (Nat.mod_lt x (by decide)) (by decide))).elim
      (fun s hs => ⟨s, hs,
        (hashset_load_factor (fun n : Nat => n % 16) [0, 1, 2, 3, 4, 5, 6, 7, 8]).1 s hs⟩)⟩

end HashSet

/-! ## HashSet: scenario, bucket placement -/

namespace HashSet
variable {α : Type}

theorem list_of_map_eq_nine {f : α → Nat} {xs : List α}
    (h : xs.map f = [0, 1, 2, 3, 4, 5, 6, 7, 8]) :
    ∃ x0 x1 x2 x3 x4 x5 x6 x7 x8, xs = [x0, x1, x2, x3, x4, x5, x6, x7, x8] ∧
      f x0 = 0 ∧ f x1 = 1 ∧ f x2 = 2 ∧ f x3 = 3 ∧ f x4 = 4 ∧ f x5 = 5 ∧ f x6 = 6 ∧
      f x7 = 7 ∧ f x8 = 8 := by
  simp only [List.map_eq_cons_iff, List.map_eq_nil_iff] at h
  obtain ⟨x0, _, rfl, h0, x1, _, rfl, h1, x2, _, rfl, h2, x3, _, rfl, h3, x4, _, rfl, h4,
    x5, _, rfl, h5, x6, _, rfl, h6, x7, _, rfl, h7, x8, _, rfl, h8, rfl⟩ := h
  exact ⟨x0, x1, x2, x3, x4, x5, x6, x7, x8, rfl, h0, h1, h2, h3, h4, h5, h6, h7, h8⟩

theorem addAll_concat [DecidableEq α] (f : α → Nat) (xs : List α) (x : α) :
    addAll f (xs ++ [x]) = (addAll f xs).bind (fun s => add s x) := by
  unfold addAll
  rw [List.foldlM_append]
  cases List.foldlM add (create f) xs with
  | none => rfl
  | some s =>
    simp only [Option.bind_eq_bind, Option.some_bind, List.foldlM_cons, List.foldlM_nil]
    cases add s x <;> rfl

theorem chainContains_single [DecidableEq α] (k : Int) (x : α) :
    chainContains x [⟨k, x⟩] = true := by
  simp [chainContains]

/-- The table after the first `k` adds of the scenario of nine elements with
the hash codes `0, ..., 8`: element `i` is alone in bucket `i`. -/
theorem scenario_steps [DecidableEq α] (f : α → Nat) (x0 x1 x2 x3 x4 x5 x6 x7 x8 : α)
    (h0 : f x0 = 0) (h1 : f x1 = 1) (h2 : f x2 = 2) (h3 : f x3 = 3) (h4 : f x4 = 4)
    (h5 : f x5 = 5) (h6 : f x6 = 6) (h7 : f x7 = 7) (h8 : f x8 = 8) :
    addAll f [] = some ⟨some f,
      [[], [], [], [], [], [], [], [], [], []],
      0, 10⟩ ∧
    addAll f [x0] = some ⟨some f,
      [[⟨0, x0⟩], [], [], [], [], [], [], [], [], []],
      1, 10⟩ ∧
    addAll f [x0, x1] = some ⟨some f,
      [[⟨0, x0⟩], [⟨1, x1⟩], [], [], [], [], [], [], [], []],
      2, 10⟩ ∧
    addAll f [x0, x1, x2] = some ⟨some f,
      [[⟨0, x0⟩], [⟨1, x1⟩], [⟨2, x2⟩], [], [], [], [], [], [], []],
      3, 10⟩ ∧
    addAll f [x0, x1, x2, x3] = some ⟨some f,
      [[⟨0, x0⟩], [⟨1, x1⟩], [⟨2, x2⟩], [⟨3, x3⟩], [], [], [], [], [], []],
      4, 10⟩ ∧
    addAll f [x0, x1, x2, x3, x4] = some ⟨some f,
      [[⟨0, x0⟩], [⟨1, x1⟩], [⟨2, x2⟩], [⟨3, x3⟩], [⟨4, x4⟩], [], [], [], [], []],
      5, 10⟩ ∧
    addAll f [x0, x1, x2, x3, x4, x5] = some ⟨some f,
      [[⟨0, x0⟩], [⟨1, x1⟩], [⟨2, x2⟩], [⟨3, x3⟩], [⟨4, x4⟩], [⟨5, x5⟩], [], [], [], []],
      6, 10⟩ ∧
    addAll f [x0, x1, x2, x3, x4, x5, x6] = some ⟨some f,
      [[⟨0, x0⟩], [⟨1, x1⟩], [⟨2, x2⟩], [⟨3, x3⟩], [⟨4, x4⟩], [⟨5, x5⟩], [⟨6, x6⟩], [], [],
       []],
      7, 10⟩ ∧
    addAll f [x0, x1, x2, x3, x4, x5, x6, x7] = some ⟨some f,
      [[⟨0, x0⟩], [⟨1, x1⟩], [⟨2, x2⟩], [⟨3, x3⟩], [⟨4, x4⟩], [⟨5, x5⟩], [⟨6, x6⟩],
       [⟨7, x7⟩], [], []],
      8, 10⟩ ∧
    addAll f [x0, x1, x2, x3, x4, x5, x6, x7, x8] = some ⟨some f,
      [[⟨0, x0⟩], [⟨1, x1⟩], [⟨2, x2⟩], [⟨3, x3⟩], [⟨4, x4⟩], [⟨5, x5⟩], [⟨6, x6⟩],
       [⟨7, x7⟩], [⟨8, x8⟩], [], [], [], [], [], [], [], [], [], [], []],
      9, 20⟩ := by
  have e0 : add (⟨some f,
      [[], [], [], [], [], [], [], [], [], []],
      0, 10⟩ : HashSet α) x0 =
      some ⟨some f,
      [[⟨0, x0⟩], [], [], [], [], [], [], [], [], []],
      1, 10⟩ := by
    simp only [add, addNoResize, h0]
    rfl
  have e1 : add (⟨some f,
      [[⟨0, x0⟩], [], [], [], [], [], [], [], [], []],
      1, 10⟩ : HashSet α) x1 =
      some ⟨some f,
      [[⟨0, x0⟩], [⟨1, x1⟩], [], [], [], [], [], [], [], []],
      2, 10⟩ := by
    simp only [add, addNoResize, h1]
    rfl
  have e2 : add (⟨some f,
      [[⟨0, x0⟩], [⟨1, x1⟩], [], [], [], [], [], [], [], []],
      2, 10⟩ : HashSet α) x2 =
      some ⟨some f,
      [[⟨0, x0⟩], [⟨1, x1⟩], [⟨2, x2⟩], [], [], [], [], [], [], []],
      3, 10⟩ := by
    simp only [add, addNoResize, h2]
    rfl
  have e3 : add (⟨some f,
      [[⟨0, x0⟩], [⟨1, x1⟩], [⟨2, x2⟩], [], [], [], [], [], [], []],
      3, 10⟩ : HashSet α) x3 =
      some ⟨some f,
      [[⟨0, x0⟩], [⟨1, x1⟩], [⟨2, x2⟩], [⟨3, x3⟩], [], [], [], [], [], []],
      4, 10⟩ := by
    simp only [add, addNoResize, h3]
    rfl
  have e4 : add (⟨some f,
      [[⟨0, x0⟩], [⟨1, x1⟩], [⟨2, x2⟩], [⟨3, x3⟩], [], [], [], [], [], []],
      4, 10⟩ : HashSet α) x4 =
      some ⟨some f,
      [[⟨0, x0⟩], [⟨1, x1⟩], [⟨2, x2⟩], [⟨3, x3⟩], [⟨4, x4⟩], [], [], [], [], []],
      5, 10⟩ := by
    simp only [add, addNoResize, h4]
    rfl
  have e5 : add (⟨some f,
      [[⟨0, x0⟩], [⟨1, x1⟩], [⟨2, x2⟩], [⟨3, x3⟩], [⟨4, x4⟩], [], [], [], [], []],
      5, 10⟩ : HashSet α) x5 =
      some ⟨some f,
      [[⟨0, x0⟩], [⟨1, x1⟩], [⟨2, x2⟩], [⟨3, x3⟩], [⟨4, x4⟩], [⟨5, x5⟩], [], [], [], []],
      6, 10⟩ := by
    simp only [add, addNoResize, h5]
    rfl
  have e6 : add (⟨some f,
      [[⟨0, x0⟩], [⟨1, x1⟩], [⟨2, x2⟩], [⟨3, x3⟩], [⟨4, x4⟩], [⟨5, x5⟩], [], [], [], []],
      6, 10⟩ : HashSet α) x6 =
      some ⟨some f,
      [[⟨0, x0⟩], [⟨1, x1⟩], [⟨2, x2⟩], [⟨3, x3⟩], [⟨4, x4⟩], [⟨5, x5⟩], [⟨6, x6⟩], [], [],
       []],
      7, 10⟩ := by
    simp only [add, addNoResize, h6]
    rfl
  have e7 : add (⟨some f,
      [[⟨0, x0⟩], [⟨1, x1⟩], [⟨2, x2⟩], [⟨3, x3⟩], [⟨4, x4⟩], [⟨5, x5⟩], [⟨6, x6⟩], [], [],
       []],
      7, 10⟩ : HashSet α) x7 =
      some ⟨some f,
      [[⟨0, x0⟩], [⟨1, x1⟩], [⟨2, x2⟩], [⟨3, x3⟩], [⟨4, x4⟩], [⟨5, x5⟩], [⟨6, x6⟩],
       [⟨7, x7⟩], [], []],
      8, 10⟩ := by
    simp only [add, addNoResize, h7]
    rfl
  have e8 : add (⟨some f,
      [[⟨0, x0⟩], [⟨1, x1⟩], [⟨2, x2⟩], [⟨3, x3⟩], [⟨4, x4⟩], [⟨5, x5⟩], [⟨6, x6⟩],
       [⟨7, x7⟩], [], []],
      8, 10⟩ : HashSet α) x8 =
      some ⟨some f,
      [[⟨0, x0⟩], [⟨1, x1⟩], [⟨2, x2⟩], [⟨3, x3⟩], [⟨4, x4⟩], [⟨5, x5⟩], [⟨6, x6⟩],
       [⟨7, x7⟩], [⟨8, x8⟩], [], [], [], [], [], [], [], [], [], [], []],
      9, 20⟩ := by
    simp only [add, addNoResize, h8]
    rfl
  have a0 : addAll f ([] : List α) = some ⟨some f,
      [[], [], [], [], [], [], [], [], [], []],
      0, 10⟩ := rfl
  have a1 : addAll f [x0] = some ⟨some f,
      [[⟨0, x0⟩], [], [], [], [], [], [], [], [], []],
      1, 10⟩ := by
    rw [show [x0] = [] ++ [x0] from rfl, addAll_concat, a0]
    exact e0
  have a2 : addAll f [x0, x1] = some ⟨some f,
      [[⟨0, x0⟩], [⟨1, x1⟩], [], [], [], [], [], [], [], []],
      2, 10⟩ := by
    rw [show [x0, x1] = [x0] ++ [x1] from rfl, addAll_concat, a1]
    exact e1
  have a3 : addAll f [x0, x1, x2] = some ⟨some f,
      [[⟨0, x0⟩], [⟨1, x1⟩], [⟨2, x2⟩], [], [], [], [], [], [], []],
      3, 10⟩ := by
    rw [show [x0, x1, x2] = [x0, x1] ++ [x2] from rfl, addAll_concat, a2]
    exact e2
  have a4 : addAll f [x0, x1, x2, x3] = some ⟨some f,
      [[⟨0, x0⟩], [⟨1, x1⟩], [⟨2, x2⟩], [⟨3, x3⟩], [], [], [], [], [], []],
      4, 10⟩ := by
    rw [show [x0, x1, x2, x3] = [x0, x1, x2] ++ [x3] from rfl, addAll_concat, a3]
    exact e3
  have a5 : addAll f [x0, x1, x2, x3, x4] = some ⟨some f,
      [[⟨0, x0⟩], [⟨1, x1⟩], [⟨2, x2⟩], [⟨3, x3⟩], [⟨4, x4⟩], [], [], [], [], []],
      5, 10⟩ := by
    rw [show [x0, x1, x2, x3, x4] = [x0, x1, x2, x3] ++ [x4] from rfl, addAll_concat, a4]
    exact e4
  have a6 : addAll f [x0, x1, x2, x3, x4, x5] = some ⟨some f,
      [[⟨0, x0⟩], [⟨1, x1⟩], [⟨2, x2⟩], [⟨3, x3⟩], [⟨4, x4⟩], [⟨5, x5⟩], [], [], [], []],
      6, 10⟩ := by
    rw [show [x0, x1, x2, x3, x4, x5] = [x0, x1, x2, x3, x4] ++ [x5] from rfl, addAll_concat, a5]
    exact e5
  have a7 : addAll f [x0, x1, x2, x3, x4, x5, x6] = some ⟨some f,
      [[⟨0, x0⟩], [⟨1, x1⟩], [⟨2, x2⟩], [⟨3, x3⟩], [⟨4, x4⟩], [⟨5, x5⟩], [⟨6, x6⟩], [], [],
       []],
      7, 10⟩ := by
    rw [show [x0, x1, x2, x3, x4, x5, x6] = [x0, x1, x2, x3, x4, x5] ++ [x6] from rfl, addAll_concat, a6]
    exact e6
  have a8 : addAll f [x0, x1, x2, x3, x4, x5, x6, x7] = some ⟨some f,
      [[⟨0, x0⟩], [⟨1, x1⟩], [⟨2, x2⟩], [⟨3, x3⟩], [⟨4, x4⟩], [⟨5, x5⟩], [⟨6, x6⟩],
       [⟨7, x7⟩], [], []],
      8, 10⟩ := by
    rw [show [x0, x1, x2, x3, x4, x5, x6, x7] = [x0, x1, x2, x3, x4, x5, x6] ++ [x7] from rfl, addAll_concat, a7]
    exact e7
  have a9 : addAll f [x0, x1, x2, x3, x4, x5, x6, x7, x8] = some ⟨some f,
      [[⟨0, x0⟩], [⟨1, x1⟩], [⟨2, x2⟩], [⟨3, x3⟩], [⟨4, x4⟩], [⟨5, x5⟩], [⟨6, x6⟩],
       [⟨7, x7⟩], [⟨8, x8⟩], [], [], [], [], [], [], [], [], [], [], []],
      9, 20⟩ := by
    rw [show [x0, x1, x2, x3, x4, x5, x6, x7, x8] = [x0, x1, x2, x3, x4, x5, x6, x7] ++ [x8] from rfl, addAll_concat, a8]
    exact e8
  exact ⟨a0, a1, a2, a3, a4, a5, a6, a7, a8, a9⟩

/-- C11. Scenario of nine elements: starting from a freshly constructed
`HashSet` and adding nine elements whose hash codes are `0, 1, ..., 8`, the
capacity is `10` and `size()` is `k` after each of the first `k ≤ 8` adds;
after the ninth add the capacity is `20` (one resize), `size()` is `9` and
`contains` is true for all nine elements. -/
theorem hashset_scenario_nine [DecidableEq α] (f : α → Nat) (xs : List α)
    (h : xs.map f = [0, 1, 2, 3, 4, 5, 6, 7, 8]) :
    (∀ k, k ≤ 8 → ∃ s, addAll f (xs.take k) = some s ∧ s.capacity = 10 ∧ s.size = k) ∧
      ∃ s, addAll f xs = some s ∧ s.capacity = 20 ∧ s.size = 9 ∧
        ∀ x ∈ xs, s.contains x = some true := by
  obtain ⟨x0, x1, x2, x3, x4, x5, x6, x7, x8, rfl, h0, h1, h2, h3, h4, h5, h6, h7, h8⟩ :=
    list_of_map_eq_nine h
  obtain ⟨a0, a1, a2, a3, a4, a5, a6, a7, a8, a9⟩ :=
    scenario_steps f x0 x1 x2 x3 x4 x5 x6 x7 x8 h0 h1 h2 h3 h4 h5 h6 h7 h8
  refine ⟨fun k hk => ?_, _, a9, rfl, rfl, fun x hx => ?_⟩
  · interval_cases k
    · exact ⟨_, a0, rfl, rfl⟩
    · exact ⟨_, a1, rfl, rfl⟩
    · exact ⟨_, a2, rfl, rfl⟩
    · exact ⟨_, a3, rfl, rfl⟩
    · exact ⟨_, a4, rfl, rfl⟩
    · exact ⟨_, a5, rfl, rfl⟩
    · exact ⟨_, a6, rfl, rfl⟩
    · exact ⟨_, a7, rfl, rfl⟩
    · exact ⟨_, a8, rfl, rfl⟩
  · simp only [List.mem_cons, List.mem_singleton, List.not_mem_nil, or_false] at hx
    rcases hx with rfl | rfl | rfl | rfl | rfl | rfl | rfl | rfl | rfl
    · simp only [contains, h0]; exact congrArg some (chainContains_single _ _)
    · simp only [contains, h1]; exact congrArg some (chainContains_single _ _)
    · simp only [contains, h2]; exact congrArg some (chainContains_single _ _)
    · simp only [contains, h3]; exact congrArg some (chainContains_single _ _)
    · simp only [contains, h4]; exact congrArg some (chainContains_single _ _)
    · simp only [contains, h5]; exact congrArg some (chainContains_single _ _)
    · simp only [contains, h6]; exact congrArg some (chainContains_single _ _)
    · simp only [contains, h7]; exact congrArg some (chainContains_single _ _)
    · simp only [contains, h8]; exact congrArg some (chainContains_single _ _)

/-- Witness of C11: the natural numbers `0, ..., 8` hashed by `n % 16`. -/
theorem hashset_scenario_nine_witness :
    [0, 1, 2, 3, 4, 5, 6, 7, 8].map (fun n : Nat => n % 16) = [0, 1, 2, 3, 4, 5, 6, 7, 8] ∧
      (∀ k, k ≤ 8 → ∃ s, addAll (fun n : Nat => n % 16)
          ([0, 1, 2, 3, 4, 5, 6, 7, 8].take k) = some s ∧ s.capacity = 10 ∧ s.size = k) ∧
      ∃ s, addAll (fun n : Nat => n % 16) [0, 1, 2, 3, 4, 5, 6, 7, 8] = some s ∧
        s.capacity = 20 ∧ s.size = 9 ∧
        ∀ x ∈ [0, 1, 2, 3, 4, 5, 6, 7, 8], s.contains x = some true :=
  ⟨rfl, hashset_scenario_nine (fun n : Nat => n % 16) [0, 1, 2, 3, 4, 5, 6, 7, 8] rfl⟩

end HashSet

namespace HashSet
variable {α : Type}

/-- C12. Out-of-range bucket index, evaluated on the source: on a freshly
constructed `HashSet` (capacity 10) the calls `elementsAtIndex(10)` and
`isElementAtIndex(3, 10)` read `hashArr[10]`, outside the bucket array,
instead of returning `0` and `false`. -/
theorem hashset_index_out_of_range :
    (create (fun n : Nat => n)).capacity = 10 ∧
      (create (fun n : Nat => n)).hashArr.length = 10 ∧
      elementsAtIndex (create (fun n : Nat => n)) 10 = none ∧
      isElementAtIndex (create (fun n : Nat => n)) 3 10 = none := by
  decide

end HashSet

/-! ## AVLSet: traversals -/

namespace AVLSet
variable {α : Type}

theorem preorderR_mk (l r : Node α) (v : α) (h : Int) :
    preorderR (.mk l v h r) = [v] ++ preorderR l ++ preorderR r := by
  cases l <;> cases r <;> simp [preorderR, Node.isNull]

theorem postorderR_mk (l r : Node α) (v : α) (h : Int) :
    postorderR (.mk l v h r) = postorderR l ++ postorderR r ++ [v] := by
  cases l <;> cases r <;> simp [postorderR, Node.isNull]

theorem preorder_eq (s : AVLSet α) : s.preorder = preorderR s.root := by
  cases s with
  | mk root => cases root <;> simp [preorder, preorderR, Node.isNull]

theorem postorder_eq (s : AVLSet α) : s.postorder = postorderR s.root := by
  cases s with
  | mk root => cases root <;> simp [postorder, postorderR, Node.isNull]

theorem preorderR_perm (t : Node α) : (preorderR t).Perm (inorderR t) := by
  induction t with
  | null => exact List.Perm.refl _
  | mk l v h r ihl ihr =>
    rw [preorderR_mk, inorderR_mk, List.append_assoc, List.append_assoc]
    simp only [List.singleton_append]
    exact ((ihl.append ihr).cons v).trans List.perm_middle.symm

theorem postorderR_perm (t : Node α) : (postorderR t).Perm (inorderR t) := by
  induction t with
  | null => exact List.Perm.refl _
  | mk l v h r ihl ihr =>
    rw [postorderR_mk, inorderR_mk, List.append_assoc, List.append_assoc]
    simp only [List.singleton_append]
    refine (ihl.append_right _).trans (List.Perm.append_left _ ?_)
    exact (List.perm_append_comm).trans (List.Perm.cons v ihr)

theorem inorder_perm_dedup [LinearOrder α] (xs : List α) :
    (addAll xs).inorder.Perm xs.dedup := by
  obtain ⟨h1, h2⟩ := avl_addAll_spec xs
  rw [inorder_eq]
  have hnd : (inorderR (addAll xs).root).Nodup := (sorted_inorderR _ h1).imp ne_of_lt
  refine (List.perm_ext_iff_of_nodup hnd (List.nodup_dedup xs)).mpr (fun y => ?_)
  rw [h2, List.mem_dedup]

/-- C14. Traversals: in every state reached from an empty `AVLSet` by `add`
calls, each of `preorder`, `inorder` and `postorder` passes to the visitor a
duplicate-free sequence holding exactly the distinct added elements (a
permutation of the sequence of adds without its repetitions); and on a tree
with root value `v`, left subtree `l` and right subtree `r` the three visit
orders are `v, l, r`, then `l, v, r`, then `l, r, v`. -/
theorem avl_traversals_visit_once [LinearOrder α] (xs : List α) :
    ((addAll xs).preorder.Perm xs.dedup ∧ (addAll xs).inorder.Perm xs.dedup ∧
        (addAll xs).postorder.Perm xs.dedup) ∧
      ((addAll xs).preorder.Nodup ∧ (addAll xs).inorder.Nodup ∧
        (addAll xs).postorder.Nodup) ∧
      ∀ (l r : Node α) (v : α) (h : Int),
        preorder ⟨.mk l v h r⟩ = [v] ++ preorder ⟨l⟩ ++ preorder ⟨r⟩ ∧
        inorder ⟨.mk l v h r⟩ = inorder ⟨l⟩ ++ [v] ++ inorder ⟨r⟩ ∧
        postorder ⟨.mk l v h r⟩ = postorder ⟨l⟩ ++ postorder ⟨r⟩ ++ [v] := by
  have hin := inorder_perm_dedup xs
  have hpre : (addAll xs).preorder.Perm xs.dedup := by
    rw [preorder_eq]
    rw [inorder_eq] at hin
    exact (preorderR_perm _).trans hin
  have hpost : (addAll xs).postorder.Perm xs.dedup := by
    rw [postorder_eq]
    rw [inorder_eq] at hin
    exact (postorderR_perm _).trans hin
  have hnd := List.nodup_dedup xs
  refine ⟨⟨hpre, hin, hpost⟩, ⟨hpre.nodup_iff.mpr hnd, hin.nodup_iff.mpr hnd,
    hpost.nodup_iff.mpr hnd⟩, fun l r v h => ?_⟩
  simp only [preorder_eq, inorder_eq, postorder_eq, preorderR_mk, inorderR_mk, postorderR_mk,
    and_self]

end AVLSet

/-! ## Copy, move and allocation failure -/

namespace AVLSet

/-- C15. Copy of an `AVLSet`, evaluated on the source. Copy assignment of an
empty `s` onto a destination that holds `1` leaves the destination unchanged:
it still contains `1` and has height `0`, where `s` does not contain `1` and
has height `-1`. For a non-empty `s` the function `copy` builds one node whose
children are `nullptr` and links it to nothing, so the copy-constructed set
has whatever root the uninitialised member held (no element when that is
`nullptr`), and so has the target of a copy assignment. -/
theorem avl_copy_does_not_copy :
    (copyAssign .null (addAll [1]) (empty : AVLSet Int) false = some (addAll [1]) ∧
        (addAll [1] : AVLSet Int).contains 1 = true ∧ (empty : AVLSet Int).contains 1 = false ∧
        (addAll [1] : AVLSet Int).height = 0 ∧ (empty : AVLSet Int).height = -1) ∧
      (copy (addAll [2, 1, 3] : AVLSet Int).root = .mk .null 2 1 .null ∧
        copyConstruct .null (addAll [2, 1, 3] : AVLSet Int) = empty ∧
        (copyConstruct .null (addAll [2, 1, 3] : AVLSet Int)).contains 2 = false ∧
        copyAssign .null (addAll [5]) (addAll [2, 1, 3] : AVLSet Int) false = some empty) := by
  decide

/-- Counterexample of C17: move assignment of a set `s` that holds `2` onto a
set that holds `1` leaves `s` with the element `1`: `s.height()` is `0`, not
`-1`, and `s.contains(1)` is true. -/
theorem avl_move_assign_source_not_empty :
    (moveAssign (addAll [1]) (addAll [2] : AVLSet Int)).2.height = 0 ∧
      (moveAssign (addAll [1]) (addAll [2] : AVLSet Int)).2.contains 1 = true ∧
      ¬ ((moveAssign (addAll [1]) (addAll [2] : AVLSet Int)).2.height = -1 ∧
          ∀ x, (moveAssign (addAll [1]) (addAll [2] : AVLSet Int)).2.contains x = false) := by
  refine ⟨by decide, by decide, fun h => ?_⟩
  exact absurd h.1 (by decide)

variable {α : Type}

/-- C17, amended. Move assignment of `s` onto `d` gives `d` the tree that `s`
held and gives `s` the tree that `d` held, so `s` is empty afterwards
(`height()` is `-1` and `contains` is false everywhere) when `d` was empty.
Move construction from `s` gives the new set the tree that `s` held, and it
leaves an empty `s` empty. -/
theorem avl_move_transfers_tree [LinearOrder α] (d s : AVLSet α) (uninit : Node α) :
    ((moveAssign d s).1 = s ∧ (moveAssign d s).2 = d) ∧
      ((moveAssign empty s).2.height = -1 ∧
        ∀ x, (moveAssign empty s).2.contains x = false) ∧
      ((moveConstruct uninit s).1 = s ∧
        (moveConstruct uninit (empty : AVLSet α)).2 = empty) := by
  refine ⟨⟨rfl, rfl⟩, ⟨rfl, fun x => rfl⟩, ?_, rfl⟩
  cases s with
  | mk root => cases root <;> rfl

end AVLSet

namespace HashSet

/-- C16. Copy of a `HashSet`, evaluated on the source: for the set `s` built by
adding `1, 2, 3` (hash code `n`), the copy constructor completes, but the copy
has an empty `hashFunction`, so `contains(1)` and `add(5)` on it throw
instead of returning, where `s.contains(1)` is true; and its buckets are the
uninitialised array (here taken as ten empty buckets), not the chains of `s`:
bucket `1` of `s` has one element, bucket `1` of the copy has none. The target
of a copy assignment has the same uninitialised buckets and does not contain
`1`. -/
theorem hashset_copy_is_not_usable :
    (addAll (fun n : Nat => n) [1, 2, 3]).bind (fun s => s.contains 1) = some true ∧
      (addAll (fun n : Nat => n) [1, 2, 3]).bind (fun s => s.elementsAtIndex 1) = some 1 ∧
      ((addAll (fun n : Nat => n) [1, 2, 3]).bind
          (fun s => copyConstruct (List.replicate 10 []) s)).isSome = true ∧
      ((addAll (fun n : Nat => n) [1, 2, 3]).bind
          (fun s => copyConstruct (List.replicate 10 []) s)).bind
          (fun c => c.contains 1) = none ∧
      (((addAll (fun n : Nat => n) [1, 2, 3]).bind
          (fun s => copyConstruct (List.replicate 10 []) s)).bind
          (fun c => c.add 5)).isSome = false ∧
      ((addAll (fun n : Nat => n) [1, 2, 3]).bind
          (fun s => copyConstruct (List.replicate 10 []) s)).bind
          (fun c => c.elementsAtIndex 1) = some 0 ∧
      ((addAll (fun n : Nat => n) [1, 2, 3]).bind
          (fun s => copyAssign (List.replicate 10 []) (create (fun n : Nat => n)) s)).bind
          (fun c => c.contains 1) = some false := by
  decide

/-- C18. Move of a `HashSet`, evaluated on the source: `s` is built by adding
`0, 1, ..., 8, 15` (hash code `n`), so it has size `10` and capacity `20`, and
it is move-assigned onto a freshly constructed `d`. Only `hashArr` is
swapped: `d.size()` is `0`, the capacity of `d` is `10`, and `d.contains(15)`
searches bucket `5` and is false. A move-constructed set has an empty
`hashFunction`, so `contains` on it throws. -/
theorem hashset_move_keeps_old_size :
    (addAll (fun n : Nat => n) [0, 1, 2, 3, 4, 5, 6, 7, 8, 15]).bind
        (fun s => some (s.size, s.capacity, s.contains 15)) = some (10, 20, some true) ∧
      (addAll (fun n : Nat => n) [0, 1, 2, 3, 4, 5, 6, 7, 8, 15]).bind
        (fun s => some ((moveAssign (create (fun n : Nat => n)) s).1.size,
          (moveAssign (create (fun n : Nat => n)) s).1.capacity,
          (moveAssign (create (fun n : Nat => n)) s).1.contains 15)) =
        some (0, 10, some false) ∧
      (addAll (fun n : Nat => n) [0, 1, 2, 3, 4, 5, 6, 7, 8, 15]).bind
        (fun s => (moveConstruct [] 10 20 s).1.contains 15) = none := by
  decide

/-- C20. Allocation failure in `add`, evaluated on the source. The set `s`
holds `0, ..., 7` (hash code `n`, size `8`, capacity `10`), and `add(8)` is
called. When the allocation of the chain node fails, the exception leaves `s`
as it was. When that allocation succeeds and the allocation of the doubled
bucket array fails, the node for `8` is already linked and `tableSize` is
`9`, and the `catch` block of `resize` has deleted `hashArr`. When the array is
allocated and a later `createNode()` of `resize` fails, `hashArr` is kept but
the set holds `8` and has size `9`. With eleven allocations `add(8)`
completes. -/
theorem hashset_add_bad_alloc_not_atomic :
    (addAll (fun n : Nat => n) [0, 1, 2, 3, 4, 5, 6, 7]).bind
        (fun s => match addAlloc 0 s 8 with
          | .badAlloc left deleted =>
            some (deleted, left.size, left.capacity, left.hashArr == s.hashArr)
          | _ => none) = some (false, 8, 10, true) ∧
      (addAll (fun n : Nat => n) [0, 1, 2, 3, 4, 5, 6, 7]).bind
        (fun s => match addAlloc 1 s 8 with
          | .badAlloc left deleted =>
            some (deleted, left.size, left.capacity, left.hashArr == s.hashArr)
          | _ => none) = some (true, 9, 10, false) ∧
      (addAll (fun n : Nat => n) [0, 1, 2, 3, 4, 5, 6, 7]).bind
        (fun s => match addAlloc 5 s 8 with
          | .badAlloc left deleted =>
            some (deleted, left.size, left.capacity, left.contains 8)
          | _ => none) = some (false, 9, 10, some true) ∧
      (addAll (fun n : Nat => n) [0, 1, 2, 3, 4, 5, 6, 7]).bind
        (fun s => match addAlloc 11 s 8, add s 8 with
          | .done s1 rest, some s2 =>
            some (rest, s1.size, s1.capacity, s1.hashArr == s2.hashArr)
          | _, _ => none) = some (0, 9, 20, true) := by
  decide

end HashSet

/-! ## WordChecker -/

namespace HashSet

variable {α : Type}

/-- A failure of the node allocation of `add` leaves the set as it was. -/
theorem addAlloc_zero_atomic [DecidableEq α] (s : HashSet α) (x : α) (left : HashSet α)
    (deleted : Bool) (h : addAlloc 0 s x = .badAlloc left deleted) :
    left = s ∧ deleted = false := by
  unfold addAlloc at h
  split at h
  · cases h
  · simp only at h
    split at h
    · cases h
    · cases h
    · split at h
      · cases h
      · simp only [AllocResult.badAlloc.injEq] at h
        exact ⟨h.1.symm, h.2.symm⟩

end HashSet

namespace WordChecker

theorem loopFrom_append (body : Nat → List (List Char) → Option (List (List Char)))
    (g : Nat → List (List Char)) (fuel start : Nat)
    (hbody : ∀ i, start ≤ i → i < start + fuel → ∀ st, body i st = some (st ++ g i))
    (st : List (List Char)) :
    loopFrom body fuel start st = some (st ++ (List.range' start fuel).flatMap g) := by
  induction fuel generalizing start st with
  | zero => simp [loopFrom]
  | succ fuel ih =>
    rw [loopFrom, hbody start (le_refl _) (by omega) st]
    simp only
    rw [ih (start + 1) (fun i h1 h2 => hbody i (by omega) (by omega))]
    simp [List.range'_succ, List.flatMap_cons, List.append_assoc]

theorem tryLetters_eq (c : WordChecker) (i : Nat) (letters : List Char) (s t : List Char)
    (suggest : List (List Char)) (hi : i < s.length) (hlen : t.length = s.length)
    (hset : ∀ ch, t.set i ch = s.set i ch) :
    ∃ t1, letters.foldlM (tryLetter c i) (t, suggest) =
      some (t1, suggest ++ (letters.map (fun ch => s.set i ch)).filter c.words) := by
  induction letters generalizing t suggest with
  | nil => exact ⟨t, by simp⟩
  | cons ch rest ih =>
    have h1 : setAt t i ch = some (s.set i ch) := by
      unfold setAt
      rw [if_pos (by omega), hset]
    obtain ⟨t1, ht1⟩ := ih (s.set i ch) (pushIfWord c (s.set i ch) suggest)
      (by simp) (fun ch2 => by rw [List.set_set])
    refine ⟨t1, ?_⟩
    rw [List.foldlM_cons, tryLetter, h1]
    simp only [Option.bind_eq_bind, Option.some_bind]
    rw [ht1]
    by_cases hw : c.words (s.set i ch) = true
    · simp [pushIfWord, hw, List.filter_cons]
    · simp [pushIfWord, hw, List.filter_cons]

theorem set_insert (word : List Char) (i : Nat) (hi : i ≤ word.length) (a ch : Char) :
    (word.take i ++ [a] ++ word.drop i).set i ch = word.take i ++ [ch] ++ word.drop i := by
  have hlen : (word.take i).length = i := by simp [hi]
  rw [List.append_assoc, List.set_append_right _ _ (by omega), hlen]
  simp

/-- What `addChars` pushes: for each position `i` from `1` to
`word.size() - 1` and each character of `alphabet`, in this order, the word
with that character inserted before position `i`, when the set contains it. -/
theorem addChars_eq (c : WordChecker) (word : List Char) (suggest : List (List Char)) :
    addChars c word suggest =
      some (suggest ++ (List.range' 1 (word.length - 1)).flatMap
        (fun i => (alphabet.map (fun ch => word.take i ++ [ch] ++ word.drop i)).filter
          c.words)) := by
  unfold addChars forLoop
  refine loopFrom_append _ _ _ _ (fun i h1 h2 st => ?_) suggest
  have hi : i < word.length := by omega
  have h3 : insertAt word i '0' = some (word.take i ++ ['0'] ++ word.drop i) := by
    unfold insertAt
    rw [if_pos (by omega)]
  have hlen : i < (word.take i ++ ['0'] ++ word.drop i).length := by
    simp; omega
  obtain ⟨t1, ht1⟩ := tryLetters_eq c i alphabet _ _ st hlen rfl (fun _ => rfl)
  simp only [h3, tryAlphabet, ht1]
  congr 3
  exact List.map_congr_left (fun ch _ => set_insert word i (by omega) '0' ch)

/-- Counterexample of C19: with the word set `"cat"`, `"bat"`, `"at"` the
function `findSuggestions("ct")` returns no suggestion at all, and so does
`addChars`: its alphabet has upper-case letters only, so the candidates are
`"cAt"`, `"cBt"`, ... -/
theorem wordchecker_ct_has_no_suggestion :
    findSuggestions (ofWords ["cat", "bat", "at"]) "ct".toList = some [] ∧
      addChars (ofWords ["cat", "bat", "at"]) "ct".toList [] = some [] ∧
      ¬ ∃ l, findSuggestions (ofWords ["cat", "bat", "at"]) "ct".toList = some l ∧
          "cat".toList ∈ l := by
  have h : findSuggestions (ofWords ["cat", "bat", "at"]) "ct".toList = some [] := by decide
  refine ⟨h, by decide, ?_⟩
  rintro ⟨l, hl, hm⟩
  rw [h] at hl
  cases hl
  exact absurd hm (List.not_mem_nil _)

/-- Every character of the alphabet of `addChars` is an upper-case letter. -/
theorem alphabet_isUpper : ∀ ch ∈ alphabet, ch.isUpper = true := by
  decide

/-- C19, amended. For the word set `"CAT"`, `"BAT"`, `"AT"` the function
`findSuggestions("CT")` returns a list that contains `"CAT"`, and `"CAT"` is
what the insertion step `addChars` produces. For every word, every string
that `addChars` pushes is the word with one upper-case letter inserted into
it, and the set contains it. -/
theorem wordchecker_insertion_suggests_upper_case (c : WordChecker) (word : List Char)
    (suggest : List (List Char)) :
    (∃ l, findSuggestions (ofWords ["CAT", "BAT", "AT"]) "CT".toList = some l ∧
        "CAT".toList ∈ l) ∧
      addChars (ofWords ["CAT", "BAT", "AT"]) "CT".toList [] = some ["CAT".toList] ∧
      ∃ l, addChars c word suggest = some (suggest ++ l) ∧
        ∀ s ∈ l, c.words s = true ∧
          ∃ i ch, ch.isUpper = true ∧ s = word.take i ++ [ch] ++ word.drop i := by
  refine ⟨⟨["CAT".toList, "AT".toList], by decide, by decide⟩, by decide, _,
    addChars_eq c word suggest, fun s hs => ?_⟩
  obtain ⟨i, _, hi⟩ := List.mem_flatMap.mp hs
  obtain ⟨hmem, hw⟩ := List.mem_filter.mp hi
  obtain ⟨ch, hch, rfl⟩ := List.mem_map.mp hmem
  exact ⟨hw, i, ch, alphabet_isUpper ch hch, rfl⟩

end WordChecker

/-! ## HashSet: hash codes from 2^31 on -/

namespace HashSet
variable {α : Type}

/-- The index that `contains` reads `hashArr` at is `bucketIndex`. -/
theorem contains_eq_bucketIndex [DecidableEq α] (s : HashSet α) (f : α → Nat)
    (hf : s.hashFunction = some f) (x : α) :
    s.contains x =
      (bucketAt s.hashArr (bucketIndex (f x) s.capacity)).map (chainContains x) := by
  unfold contains bucketIndex
  simp only [hf]
  cases bucketAt s.hashArr (Int.tmod (unsignedToInt (f x)) s.capacity) <;> rfl

/-- A negative `int` index is outside the array. -/
theorem bucketAt_of_neg (arr : List (List (hashNode α))) {i : Int} (h : i < 0) :
    bucketAt arr i = none := by
  unfold bucketAt
  rw [if_pos h]

/-- With a negative index `contains` reads outside the bucket array. -/
theorem contains_of_negative_index [DecidableEq α] (s : HashSet α) (f : α → Nat)
    (hf : s.hashFunction = some f) (x : α) (h : bucketIndex (f x) s.capacity < 0) :
    s.contains x = none := by
  rw [contains_eq_bucketIndex s f hf x, bucketAt_of_neg _ h]
  rfl

/-- With a negative index `add` reads outside the bucket array, as long as
the array has fewer than `2^31` buckets: `isElementAtIndex` receives the index
converted to `unsigned int`, which is `2^32 + index`. -/
theorem add_of_negative_index [DecidableEq α] (s : HashSet α) (f : α → Nat)
    (hf : s.hashFunction = some f) (x : α) (h : bucketIndex (f x) s.capacity < 0)
    (hlow : -2 ^ 31 ≤ bucketIndex (f x) s.capacity) (hlen : s.hashArr.length < 2 ^ 31) :
    s.add x = none := by
  have hidx : s.hashArr.length ≤ intToUnsigned (bucketIndex (f x) s.capacity) := by
    unfold intToUnsigned
    rw [if_pos h]
    omega
  unfold add addNoResize
  simp only [hf]
  unfold isElementAtIndex
  unfold bucketIndex at hidx
  rw [List.getElem?_eq_none hidx]

/-- For a hash code below `2^31` the index is `hashCode mod capacity` and lies
in `0 .. capacity - 1`. -/
theorem bucketIndex_of_lt {h : Nat} (hh : h < 2 ^ 31) {capacity : Int} (hc : 0 < capacity) :
    bucketIndex h capacity = (h : Int) % capacity ∧ 0 ≤ bucketIndex h capacity ∧
      bucketIndex h capacity < capacity := by
  unfold bucketIndex
  rw [unsignedToInt_of_lt hh]
  exact ⟨Int.tmod_eq_emod (Int.natCast_nonneg _) (le_of_lt hc),
    Int.tmod_nonneg _ (Int.natCast_nonneg _), Int.tmod_lt_of_pos _ hc⟩

theorem neg_tmod_eq (a b : Int) : Int.tmod (-a) b = -Int.tmod a b := by
  rw [Int.tmod_def, Int.tmod_def, Int.neg_tdiv]
  ring

/-- For a hash code from `2^31` to `2^32 - 1` the index is never positive, and
it is negative unless `hashCode - 2^32` is a multiple of the capacity. -/
theorem bucketIndex_of_ge {h : Nat} (h1 : 2 ^ 31 ≤ h) (h2 : h < 2 ^ 32) {capacity : Int}
    (hc : 0 < capacity) :
    bucketIndex h capacity = -(((2 : Int) ^ 32 - h) % capacity) ∧
      bucketIndex h capacity ≤ 0 ∧ -capacity < bucketIndex h capacity := by
  have hk : unsignedToInt h = -((2 : Int) ^ 32 - h) := by
    unfold unsignedToInt
    have h3 : h % 2 ^ 32 = h := Nat.mod_eq_of_lt h2
    rw [h3, if_neg (by omega)]
    ring
  have hpos : (0 : Int) ≤ (2 : Int) ^ 32 - h := by
    have : (h : Int) < 2 ^ 32 := by exact_mod_cast h2
    omega
  unfold bucketIndex
  rw [hk, neg_tmod_eq, Int.tmod_eq_emod hpos (le_of_lt hc)]
  have h4 := Int.emod_nonneg ((2 : Int) ^ 32 - h) (ne_of_gt hc)
  have h5 := Int.emod_lt_of_pos ((2 : Int) ^ 32 - h) hc
  exact ⟨rfl, by omega, by omega⟩

/-- C21. Bucket index, evaluated on the source: on a freshly constructed set
(capacity 10) whose hash function gives the element `7` the code `2^31 + 5`,
the statements `int key = hashFunction(element); int index = key%capacity;`
compute `key = -2147483643` and `index = -3`, not
`(2^31 + 5) mod 10 = 3`; and both `add(7)` and `contains(7)` read `hashArr`
outside the bucket array. -/
theorem hashset_negative_bucket_index :
    unsignedToInt (2 ^ 31 + 5) = -2147483643 ∧
      bucketIndex (2 ^ 31 + 5) (create (fun _ : Nat => 2 ^ 31 + 5)).capacity = -3 ∧
      (2 ^ 31 + 5) % 10 = 3 ∧
      intToUnsigned (-3) = 4294967293 ∧
      (create (fun _ : Nat => 2 ^ 31 + 5)).add 7 = none ∧
      (create (fun _ : Nat => 2 ^ 31 + 5)).contains 7 = none := by
  refine ⟨by decide, by decide, by decide, by decide, ?_, ?_⟩
  · exact add_of_negative_index _ _ rfl 7 (by decide) (by decide) (by decide)
  · exact contains_of_negative_index _ _ rfl 7 (by decide)

end HashSet

/-! ## WordChecker: character accesses -/

namespace WordChecker

theorem loopFrom_isSome {σ : Type} (body : Nat → σ → Option σ) (fuel start : Nat)
    (hbody : ∀ i, start ≤ i → i < start + fuel → ∀ st, ∃ st1, body i st = some st1)
    (st : σ) : ∃ r, loopFrom body fuel start st = some r := by
  induction fuel generalizing start st with
  | zero => exact ⟨st, rfl⟩
  | succ fuel ih =>
    obtain ⟨st1, h1⟩ := hbody start (le_refl _) (by omega) st
    obtain ⟨r, hr⟩ := ih (start + 1) (fun i h2 h3 => hbody i (by omega) (by omega)) st1
    exact ⟨r, by rw [loopFrom, h1]; exact hr⟩

/-- For a non-empty string, `word.size() - 1` does not wrap around. -/
theorem sizeMinusOne_of_pos (word : List Char) (h0 : 0 < word.length)
    (hmax : word.length < 2 ^ 64) : sizeMinusOne word = word.length - 1 := by
  unfold sizeMinusOne
  omega

theorem swapAt_isSome (s : List Char) (i : Nat) (hi : i + 1 < s.length) :
    ∃ t, swapAt s i = some t := by
  unfold swapAt
  rw [List.getElem?_eq_getElem (by omega : i < s.length), List.getElem?_eq_getElem hi]
  exact ⟨_, rfl⟩

theorem charAt_isSome (word : List Char) (i : Nat) (hi : i ≤ word.length) :
    ∃ ch, charAt word i = some ch := by
  unfold charAt
  by_cases h : i < word.length
  · rw [if_pos h, List.getElem?_eq_getElem h]
    exact ⟨_, rfl⟩
  · rw [if_neg h, if_pos (by omega)]
    exact ⟨_, rfl⟩

theorem swapAdjacent_isSome (c : WordChecker) (word : List Char) (h0 : 0 < word.length)
    (hmax : word.length < 2 ^ 64) (suggest : List (List Char)) :
    ∃ r, swapAdjacent c word suggest = some r := by
  unfold swapAdjacent forLoop
  rw [sizeMinusOne_of_pos word h0 hmax]
  refine loopFrom_isSome _ _ _ (fun i _ h2 st => ?_) suggest
  obtain ⟨t, ht⟩ := swapAt_isSome word i (by omega)
  exact ⟨_, by rw [ht]⟩

theorem delEach_isSome (c : WordChecker) (word : List Char) (suggest : List (List Char)) :
    ∃ r, delEach c word suggest = some r := by
  unfold delEach forLoop
  refine loopFrom_isSome _ _ _ (fun i _ h2 st => ?_) suggest
  obtain ⟨a, ha⟩ := charAt_isSome word i (by omega)
  obtain ⟨b, hb⟩ := charAt_isSome word (i + 1) (by omega)
  simp only [ha, hb]
  split_ifs
  · exact ⟨_, rfl⟩
  · exact ⟨_, rfl⟩

theorem repChar_isSome (c : WordChecker) (word : List Char) (suggest : List (List Char)) :
    ∃ r, repChar c word suggest = some r := by
  unfold repChar forLoop
  refine loopFrom_isSome _ _ _ (fun i _ h2 st => ?_) suggest
  obtain ⟨t1, ht1⟩ := tryLetters_eq c i alphabet word word st (by omega) rfl (fun _ => rfl)
  refine ⟨st ++ (alphabet.map (fun ch => word.set i ch)).filter c.words, ?_⟩
  simp only [tryAlphabet, ht1]

theorem splitWord_isSome (c : WordChecker) (word : List Char) (suggest : List (List Char)) :
    ∃ r, splitWord c word suggest = some r := by
  unfold splitWord forLoop
  refine loopFrom_isSome _ _ _ (fun i _ h2 st => ?_) suggest
  have h3 : insertAt word i ' ' = some (word.take i ++ [' '] ++ word.drop i) := by
    unfold insertAt
    rw [if_pos (by omega)]
  simp only [h3]
  split_ifs
  · exact ⟨_, rfl⟩
  · exact ⟨_, rfl⟩
  · exact ⟨_, rfl⟩

/-- On a non-empty word every step of `findSuggestions` stays inside the
strings it reads and modifies (the read `word[i+1]` of `delEach` at the last
position reads `word[word.size()]`, the null character), and
`findSuggestions` returns a list. -/
theorem findSuggestions_of_nonempty (c : WordChecker) (word : List Char)
    (h0 : 0 < word.length) (hmax : word.length < 2 ^ 64) :
    ∃ l, findSuggestions c word = some l := by
  obtain ⟨r1, h1⟩ := swapAdjacent_isSome c word h0 hmax []
  have h2 := addChars_eq c word r1
  obtain ⟨r3, h3⟩ := delEach_isSome c word
    (r1 ++ (List.range' 1 (word.length - 1)).flatMap
      (fun i => (alphabet.map (fun ch => word.take i ++ [ch] ++ word.drop i)).filter c.words))
  obtain ⟨r4, h4⟩ := repChar_isSome c word r3
  obtain ⟨r5, h5⟩ := splitWord_isSome c word r4
  exact ⟨r5, by simp only [findSuggestions, h1, Option.some_bind, h2, h3, h4, h5]⟩

/-- The first iteration of the loop of `swapAdjacent` on the empty word. -/
theorem swapAdjacent_nil (c : WordChecker) (suggest : List (List Char)) :
    swapAdjacent c [] suggest = none := by
  unfold swapAdjacent forLoop
  have h : sizeMinusOne [] - 0 = 18446744073709551614 + 1 := by decide
  rw [h, loopFrom]
  rfl

/-- C22. Safety of `findSuggestions`, evaluated on the source for the empty
word: in `swapAdjacent` the bound `word.size() - 1` is `2^64 - 1`, so the loop
is entered with `i = 0`, and `std::swap(s[0], s[1])` accesses positions `0` and
`1` of the empty copy `s`, outside the string; `findSuggestions("")` does not
return a list. This holds for every word set. -/
theorem wordchecker_empty_word_out_of_range (c : WordChecker) :
    sizeMinusOne [] = 2 ^ 64 - 1 ∧ swapAt [] 0 = none ∧
      swapAdjacent c [] [] = none ∧ findSuggestions c [] = none := by
  refine ⟨by decide, rfl, swapAdjacent_nil c [], ?_⟩
  unfold findSuggestions
  rw [swapAdjacent_nil]
  rfl

end WordChecker
